import Mathlib

/-!
Verification of the packed binary representation layer for symbolic
expressions (representation.rs): byte encodings of expression nodes,
zero-copy views, growable builders, the list navigation protocol
(sequential iteration and random access by repeated skip), and the
single-expression serialization frame.

Bytes are modelled as natural numbers below 256 in `List Nat` buffers.
Machine integer casts (`as u32`, `as u64`) are made explicit with `% 2^32`
and `% 2^64` where the source truncates.
-/

namespace Symbolica

/-- Little-endian byte encoding of `v` in exactly `k` bytes (the value is
truncated modulo `256^k`, as a fixed-width machine write would). -/
def toLE : Nat → Nat → List Nat
  | 0, _ => []
  | k + 1, v => v % 256 :: toLE k (v / 256)

/-- Little-endian byte decoding. -/
def fromLE : List Nat → Nat
  | [] => 0
  | b :: r => b % 256 + 256 * fromLE r

/-- Modelled from the spec: the packed-pair integer codec of the
coefficient module (not included in the provided sources) is a
self-describing variable-length encoding of a pair of non-negative
integers, using the fewest of 1/2/4/8 little-endian bytes per component
and eliding a denominator equal to one.  `tagLen` maps a size tag from
the descriptor byte to its byte count. -/
def tagLen : Nat → Nat
  | 0 => 0
  | 1 => 1
  | 2 => 2
  | 3 => 4
  | _ => 8

/-- Size tag for a numerator component: smallest of u8/u16/u32/u64. -/
def numTier (n : Nat) : Nat :=
  if n < 256 then 1 else if n < 65536 then 2 else if n < 4294967296 then 3 else 4

/-- Size tag for a denominator component: a denominator of one is elided. -/
def denTier (d : Nat) : Nat :=
  if d = 1 then 0 else numTier d

/-- Component bytes of a packed pair (numerator, then the denominator
unless it is one). -/
def packBody (a b : Nat) : List Nat :=
  toLE (tagLen (numTier a)) a ++ if b = 1 then [] else toLE (tagLen (numTier b)) b

/-- Modelled from the spec: `(u64, u64)::write_packed` of the coefficient
module.  One descriptor byte (numerator tag in the low nibble, denominator
tag in the next three bits) followed by the components little-endian. -/
def packPair (a b : Nat) : List Nat :=
  (numTier a + 16 * denTier b) :: packBody a b

/-- Modelled from the spec: `get_frac_u64` of the coefficient module.
Reads a packed pair and returns both values and the unconsumed remainder
of the slice. -/
def getFracU64 (l : List Nat) : Nat × Nat × List Nat :=
  match l with
  | [] => (0, 0, [])
  | d :: r =>
    let nl := tagLen (d % 16)
    let dl := tagLen (d / 16 % 8)
    (fromLE (r.take nl),
     if d / 16 % 8 = 0 then 1 else fromLE ((r.drop nl).take dl),
     r.drop (nl + dl))

/-- Modelled from the spec: `skip_rational` of the coefficient module.
Skips one self-delimiting packed-pair encoding by decoding only the
descriptor byte. -/
def skipRational (l : List Nat) : List Nat :=
  match l with
  | [] => []
  | d :: r => r.drop (tagLen (d % 16) + tagLen (d / 16 % 8))

/-- `put_u32_le` / the four-byte little-endian length field. -/
def u32le (n : Nat) : List Nat := toLE 4 n

/-- `get_u32_le`: read a four-byte little-endian field. -/
def readU32LE (l : List Nat) : Nat := fromLE (l.take 4)

/-- Eight-byte little-endian field used by the serialization frame. -/
def u64le (n : Nat) : List Nat := toLE 8 n

/-- Modelled from the spec: a `Symbol` (interned in state.rs, not included)
is a 32-bit identifier plus immutable attributes: wildcard level and the
symmetry/linearity flags. -/
structure Symbol where
  id : Nat
  wildcard_level : Nat
  is_symmetric : Bool
  is_antisymmetric : Bool
  is_cyclesymmetric : Bool
  is_linear : Bool
deriving DecidableEq

/-- The wildcard-level bits of the header byte
(`VAR_WILDCARD_LEVEL_1/2/3`, with every level above two saturating). -/
def wlBits (wl : Nat) : Nat :=
  match wl with
  | 0 => 0
  | 1 => 8
  | 2 => 16
  | _ => 24

/-- Header byte written by `Var::set_from_symbol`: `VAR_ID` plus wildcard
bits, `FUN_SYMMETRIC_FLAG`, `FUN_LINEAR_FLAG`, `VAR_ANTISYMMETRIC_FLAG`
and `VAR_CYCLESYMMETRIC_FLAG` or-ed in. -/
def varFlags (s : Symbol) : Nat :=
  let f := 2 ||| wlBits s.wildcard_level
  let f := if s.is_symmetric then f ||| 32 else f
  let f := if s.is_linear then f ||| 64 else f
  let f := if s.is_antisymmetric then f ||| 128 else f
  if s.is_cyclesymmetric then f ||| 160 else f

/-- Header byte written by `Fun::set_from_symbol`: `FUN_ID | NOT_NORMALIZED`
plus wildcard bits, the symmetric flag (also set for cyclesymmetric
symbols) and the linear flag. -/
def funFlags (s : Symbol) : Nat :=
  let f := 3 ||| 128 ||| wlBits s.wildcard_level
  let f := if s.is_symmetric || s.is_cyclesymmetric then f ||| 32 else f
  if s.is_linear then f ||| 64 else f

/-- Function identifier as stored: the symbol id with
`FUN_ANTISYMMETRIC_FLAG` (bit 32) or-ed in for antisymmetric or
cyclesymmetric symbols. -/
def funPackedId (s : Symbol) : Nat :=
  if s.is_antisymmetric || s.is_cyclesymmetric then s.id ||| 4294967296
  else s.id

/-- Abstract expression tree: the six node kinds of the representation
layer.  Coefficients are restricted to exact non-negative rationals
(numerator, denominator); the finite-field and rational-polynomial
coefficient payloads live in the coefficient module, which is not part of
the provided sources. -/
inductive SAtom where
  | num (n d : Nat)
  | var (s : Symbol)
  | fn (s : Symbol) (args : List SAtom)
  | mul (args : List SAtom)
  | add (args : List SAtom)
  | pow (base exp : SAtom)

/-- The 3-bit variant tag of each node kind. -/
def tagOf : SAtom → Nat
  | .num _ _ => 1
  | .var _ => 2
  | .fn _ _ => 3
  | .mul _ => 4
  | .add _ => 5
  | .pow _ _ => 6

mutual

/-- Byte encoding of a node, as produced by the builders: Num is
`NUM_ID` then the packed coefficient; Var is the flag byte then the packed
`(id, 1)` pair; Fun and Mul are the flag byte (with `NOT_NORMALIZED`
set, as the builders leave it), a four-byte little-endian payload length,
the packed `(id, count)` resp. `(count, 1)` pair and the children; Add is
the flag byte, the packed `(count, payload length)` pair and the children;
Pow is the flag byte followed directly by base and exponent. -/
def encode : SAtom → List Nat
  | .num n d => 1 :: packPair n d
  | .var s => varFlags s :: packPair s.id 1
  | .fn s args =>
    let body := encodeList args
    let hdr := packPair (funPackedId s) args.length
    funFlags s :: u32le (hdr.length + body.length) ++ hdr ++ body
  | .mul args =>
    let body := encodeList args
    let hdr := packPair args.length 1
    132 :: u32le (hdr.length + body.length) ++ hdr ++ body
  | .add args =>
    let body := encodeList args
    133 :: packPair args.length body.length ++ body
  | .pow b e => 134 :: encode b ++ encode e

/-- Concatenation of the encodings of a run of sibling nodes. -/
def encodeList : List SAtom → List Nat
  | [] => []
  | a :: as => encode a ++ encodeList as

end

mutual

/-- Well-formedness bounds under which the encoding is navigable: child
counts fit in a `u64`, the explicit Fun/Mul payload-length field fits in a
`u32`, the Add payload length fits in a `u64`, and function identifiers
are 32-bit. -/
def wfB : SAtom → Bool
  | .num _ _ => true
  | .var _ => true
  | .fn s args =>
    decide (s.id < 4294967296) &&
    decide (args.length < 18446744073709551616) &&
    decide ((packPair (funPackedId s) args.length).length + (encodeList args).length
      < 4294967296) &&
    wfListB args
  | .mul args =>
    decide (args.length < 18446744073709551616) &&
    decide ((packPair args.length 1).length + (encodeList args).length < 4294967296) &&
    wfListB args
  | .add args =>
    decide (args.length < 18446744073709551616) &&
    decide ((encodeList args).length < 18446744073709551616) &&
    wfListB args
  | .pow b e => wfB b && wfB e

def wfListB : List SAtom → Bool
  | [] => true
  | a :: as => wfB a && wfListB as

end

/-- `ListSlice::skip`: advance a byte cursor past `n` encoded siblings.
The running count is the worklist of atoms still to be skipped; Num and
Var are self-delimiting, Fun and Mul carry an explicit four-byte payload
length, Add recovers its payload length from the packed header pair, and
Pow has no stored length so its two children are pushed onto the count. -/
def sliceSkip : List Nat → Nat → List Nat
  | pos, 0 => pos
  | [], _ + 1 => []
  | b :: rest, k + 1 =>
    if b % 8 = 1 ∨ b % 8 = 2 then
      sliceSkip (skipRational rest) k
    else if b % 8 = 3 ∨ b % 8 = 4 then
      sliceSkip ((rest.drop 4).drop (readU32LE rest)) k
    else if b % 8 = 5 then
      sliceSkip ((getFracU64 rest).2.2.drop (getFracU64 rest).2.1) k
    else if b % 8 = 6 then
      sliceSkip rest (k + 2)
    else
      rest
termination_by pos _ => pos.length
decreasing_by
  · have hsr : (skipRational rest).length ≤ rest.length := by
      cases rest with
      | nil => simp [skipRational]
      | cons d r => simp [skipRational]; omega
    simp
    omega
  · simp [List.length_drop]
    omega
  · have hgf : (getFracU64 rest).2.2.length ≤ rest.length := by
      cases rest with
      | nil => simp [getFracU64]
      | cons d r => simp [getFracU64]; omega
    simp [List.length_drop]
    omega
  · simp

/-- The skip loop inside `ListIterator::next`, a second copy of the same
state machine (the source duplicates it). -/
def iterLoop : List Nat → Nat → List Nat
  | pos, 0 => pos
  | [], _ + 1 => []
  | b :: rest, k + 1 =>
    if b % 8 = 1 ∨ b % 8 = 2 then
      iterLoop (skipRational rest) k
    else if b % 8 = 3 ∨ b % 8 = 4 then
      iterLoop ((rest.drop 4).drop (readU32LE rest)) k
    else if b % 8 = 5 then
      iterLoop ((getFracU64 rest).2.2.drop (getFracU64 rest).2.1) k
    else if b % 8 = 6 then
      iterLoop rest (k + 2)
    else
      rest
termination_by pos _ => pos.length
decreasing_by
  · have hsr : (skipRational rest).length ≤ rest.length := by
      cases rest with
      | nil => simp [skipRational]
      | cons d r => simp [skipRational]; omega
    simp
    omega
  · simp [List.length_drop]
    omega
  · have hgf : (getFracU64 rest).2.2.length ≤ rest.length := by
      cases rest with
      | nil => simp [getFracU64]
      | cons d r => simp [getFracU64]; omega
    simp [List.length_drop]
    omega
  · simp

/-- A sequential iterator over a run of sibling nodes: the remaining bytes
and the remaining count. -/
structure ListIterator where
  data : List Nat
  length : Nat

/-- `ListIterator::next`: if the count is exhausted return nothing,
otherwise run the skip loop once and return the consumed byte range as
the element together with the advanced iterator. -/
def ListIterator.next (it : ListIterator) : Option (List Nat × ListIterator) :=
  match it.length with
  | 0 => none
  | n + 1 =>
    let rest := iterLoop it.data 1
    some (it.data.take (it.data.length - rest.length), ⟨rest, n⟩)

/-- Drain an iterator into the list of elements it produces. -/
def iterToListGo : Nat → ListIterator → List (List Nat)
  | 0, _ => []
  | fuel + 1, it =>
    match it.next with
    | none => []
    | some (v, it2) => v :: iterToListGo fuel it2

def iterToList (it : ListIterator) : List (List Nat) :=
  iterToListGo it.length it

/-- The `SliceType` discriminant carried by a `ListSlice`. -/
inductive SliceType where
  | arg
  | mulT
  | addT
  | powT
  | one
  | empty
deriving DecidableEq

/-- A random access slice over a run of sibling nodes. -/
structure ListSlice where
  data : List Nat
  length : Nat
  slice_type : SliceType
deriving DecidableEq

/-- `ListSlice::get_entry`: decode the element starting at the cursor by
skipping once; returns the element bytes and the position after it. -/
def getEntry (start : List Nat) : List Nat × List Nat :=
  (start.take (start.length - (sliceSkip start 1).length), sliceSkip start 1)

/-- `ListSlice::fast_forward`: skip `index` elements. -/
def ListSlice.fastForward (s : ListSlice) (index : Nat) : ListSlice :=
  { data := sliceSkip s.data index, length := s.length - index,
    slice_type := s.slice_type }

/-- `ListSlice::get`: fast-forward then decode one entry. -/
def ListSlice.get (s : ListSlice) (index : Nat) : List Nat :=
  (getEntry (s.fastForward index).data).1

def ListSlice.len (s : ListSlice) : Nat := s.length

/-- `FunView::get_nargs`: second component of the packed pair after the
flag byte and the four-byte size field. -/
def funGetNargs (data : List Nat) : Nat := (getFracU64 (data.drop 5)).2.1

/-- `MulView::get_nargs`: first component of the packed pair after the
flag byte and the four-byte size field. -/
def mulGetNargs (data : List Nat) : Nat := (getFracU64 (data.drop 5)).1

/-- `AddView::get_nargs`: first component of the packed pair after the
flag byte. -/
def addGetNargs (data : List Nat) : Nat := (getFracU64 (data.drop 1)).1

/-- `FunView::iter`: skip the header, read `(id, n_args)`, and iterate the
remainder; the count is truncated to `u32`. -/
def funIter (data : List Nat) : ListIterator :=
  ⟨(getFracU64 (data.drop 5)).2.2, (getFracU64 (data.drop 5)).2.1 % 4294967296⟩

/-- `MulView::iter`. -/
def mulIter (data : List Nat) : ListIterator :=
  ⟨(getFracU64 (data.drop 5)).2.2, (getFracU64 (data.drop 5)).1 % 4294967296⟩

/-- `AddView::iter`. -/
def addIter (data : List Nat) : ListIterator :=
  ⟨(getFracU64 (data.drop 1)).2.2, (getFracU64 (data.drop 1)).1 % 4294967296⟩

/-- `FunView::to_slice`. -/
def funToSlice (data : List Nat) : ListSlice :=
  ⟨(getFracU64 (data.drop 5)).2.2, (getFracU64 (data.drop 5)).2.1, .arg⟩

/-- `MulView::to_slice`. -/
def mulToSlice (data : List Nat) : ListSlice :=
  ⟨(getFracU64 (data.drop 5)).2.2, (getFracU64 (data.drop 5)).1, .mulT⟩

/-- `AddView::to_slice`. -/
def addToSlice (data : List Nat) : ListSlice :=
  ⟨(getFracU64 (data.drop 1)).2.2, (getFracU64 (data.drop 1)).1, .addT⟩

/-- `PowView::to_slice`: the bytes after the flag byte with fixed
length two. -/
def powToSlice (data : List Nat) : ListSlice :=
  ⟨data.drop 1, 2, .powT⟩

/-- `PowView::get_base_exp`: a two-element iterator over the bytes after
the flag byte, advanced twice. -/
def powGetBaseExp (data : List Nat) : List Nat × List Nat :=
  match (ListIterator.mk (data.drop 1) 2).next with
  | some (b, it2) =>
    match it2.next with
    | some (e, _) => (b, e)
    | none => (b, [])
  | none => ([], [])

/-- `is_normalized` of the container views: the `NOT_NORMALIZED` bit of
the flag byte is clear. -/
def isNormalized (data : List Nat) : Bool := data.headD 0 &&& 128 == 0

/-- `set_normalized` of the builders: set or clear the `NOT_NORMALIZED`
bit of the flag byte. -/
def setNormalized (data : List Nat) (normalized : Bool) : List Nat :=
  (if normalized then data.headD 0 &&& 127 else data.headD 0 ||| 128) :: data.tail

/-- `Var::set_from_symbol`: the flag byte followed by the packed
`(id, 1)` pair. -/
def varData (s : Symbol) : List Nat := varFlags s :: packPair s.id 1

/-- `InlineVar::new`: a sixteen-byte zero-initialised array holding the
flag byte and the fixed-width write of the packed `(id, 1)` pair, plus
the recorded size. -/
def inlineVarNew (s : Symbol) : List Nat × Nat :=
  let flags :=
    let f := 2 ||| wlBits s.wildcard_level
    let f := if s.is_symmetric then f ||| 32 else f
    let f := if s.is_linear then f ||| 64 else f
    let f := if s.is_antisymmetric then f ||| 128 else f
    if s.is_cyclesymmetric then f ||| 160 else f
  let p := packPair s.id 1
  (flags :: (p ++ List.replicate (15 - p.length) 0), 1 + p.length)

/-- `InlineVar::get_data`: the first `size` bytes of the inline array. -/
def inlineVarGetData (s : Symbol) : List Nat :=
  (inlineVarNew s).1.take (inlineVarNew s).2

/-- `Fun::set_from_symbol` on a cleared buffer: flag byte, four-byte
payload length, then the packed `(id, 0)` pair. -/
def funNew (s : Symbol) : List Nat :=
  let hdr := packPair (funPackedId s) 0
  funFlags s :: u32le hdr.length ++ hdr

/-- `Fun::add_arg`: set `NOT_NORMALIZED`, re-read `(id, n_args)`,
increment the count, rewrite the header pair in place (shifting the
stored children by the size delta), append the child bytes, and rewrite
the payload-length field. -/
def funAddArg (data other : List Nat) : List Nat :=
  let b0 := data.headD 0 ||| 128
  let c := data.drop 5
  let p := getFracU64 c
  let oldSize := c.length - p.2.2.length
  let hdr := packPair p.1 (p.2.1 + 1)
  let payload := hdr ++ data.drop (5 + oldSize) ++ other
  b0 :: u32le payload.length ++ payload

/-- `Mul::new_into` on a cleared buffer. -/
def mulNew : List Nat :=
  let hdr := packPair 0 1
  132 :: u32le hdr.length ++ hdr

/-- `Mul::extend`: set `NOT_NORMALIZED`, re-read `(n_args, _)`; if the
operand is itself a Mul, add its count and splice its children bytes,
otherwise add one and append the operand; rewrite the header pair and the
payload-length field. -/
def mulExtend (data other : List Nat) : List Nat :=
  let b0 := data.headD 0 ||| 128
  let c := data.drop 5
  let p := getFracU64 c
  let oldSize := c.length - p.2.2.length
  let sub :=
    if other.headD 0 % 8 = 4 then
      ((getFracU64 (other.drop 5)).1, (getFracU64 (other.drop 5)).2.2)
    else (1, other)
  let hdr := packPair (p.1 + sub.1) 1
  let payload := hdr ++ data.drop (5 + oldSize) ++ sub.2
  b0 :: u32le payload.length ++ payload

/-- `Mul::replace_last`: re-read and rewrite the `(n_args, 1)` header,
locate the last child through the slice, truncate the buffer at its start
offset, append the replacement, and rewrite the payload-length field.
The flag byte is left untouched. -/
def mulReplaceLast (data other : List Nat) : List Nat :=
  let c := data.drop 5
  let p := getFracU64 c
  let oldSize := c.length - p.2.2.length
  let hdr := packPair p.1 1
  let d2 := data.take 5 ++ hdr ++ data.drop (5 + oldSize)
  let s := mulToSlice d2
  let lastStart := sliceSkip s.data (s.len - 1)
  let d3 := d2.take (d2.length - lastStart.length) ++ other
  d3.headD 0 :: u32le (d3.length - 5) ++ d3.drop 5

/-- `Add::new_into` on a cleared buffer. -/
def addNew : List Nat := 133 :: packPair 0 0

/-- `Add::extend`: set `NOT_NORMALIZED`, re-read `(n_args, _)`, splice a
nested Add or append the operand, then rewrite the header with the new
count and payload length (shifting the payload by the size delta). -/
def addExtend (data other : List Nat) : List Nat :=
  let b0 := data.headD 0 ||| 128
  let c := data.drop 1
  let p := getFracU64 c
  let oldHdr := 1 + (c.length - p.2.2.length)
  let sub :=
    if other.headD 0 % 8 = 5 then
      ((getFracU64 (other.drop 1)).1, (getFracU64 (other.drop 1)).2.2)
    else (1, other)
  let body := data.drop oldHdr ++ sub.2
  b0 :: packPair (p.1 + sub.1) body.length ++ body

/-- `AtomView::write`: one reserved flags byte, the payload length as
eight little-endian bytes, then the payload. -/
def atomWrite (d : List Nat) : List Nat := 0 :: u64le d.length ++ d

/-- `Atom::read`: consume the flags byte, the eight-byte length, then
exactly that many payload bytes; fail on a short read, and fail (the
source panics) on an unknown variant tag. Returns the decoded payload and
the unconsumed remainder of the stream. -/
def atomRead (stream : List Nat) : Option (List Nat × List Nat) :=
  match stream with
  | [] => none
  | _ :: rest =>
    if rest.length < 8 then none
    else
      let n := fromLE (rest.take 8)
      let body := rest.drop 8
      if body.length < n then none
      else
        let dest := body.take n
        if 1 ≤ dest.headD 0 % 8 ∧ dest.headD 0 % 8 ≤ 6 then some (dest, body.drop n)
        else none

/-- Modelled from the spec: `AtomView::rename` rewrites symbol ids through
the import `StateMap` and re-normalizes; `State::import` (state.rs) and
the normalization pass are outside the provided sources.  For an import
whose symbol tables already agree the `StateMap` is empty and the rewrite
leaves every node unchanged, which is the identity modelled here
(normalization is out of scope for this layer per the spec). -/
def renameIdentity (d : List Nat) : List Nat := d

/-- The multi-expression loop of `Atom::import`: read each framed
expression and `Add::extend` it onto the accumulator. -/
def importGo : Nat → List Nat → List Nat → Option (List Nat)
  | 0, _, acc => some acc
  | n + 1, stream, acc =>
    match atomRead stream with
    | none => none
    | some (payload, rest) => importGo n rest (addExtend acc payload)

/-- `Atom::import` after the symbol-table section (spec-modelled as empty,
see `renameIdentity`): read the eight-byte expression count; with exactly
one expression, read and rename it; otherwise extend a fresh Add with
each expression and rename the result. -/
def atomImport (stream : List Nat) : Option (List Nat) :=
  let n := fromLE (stream.take 8)
  let rest := stream.drop 8
  if n = 1 then
    match atomRead rest with
    | none => none
    | some (payload, _) => some (renameIdentity payload)
  else
    (importGo n rest addNew).map renameIdentity

/-- The borrowed tagged union `AtomView`: one variant per node kind, each
holding its byte range. -/
inductive AtomViewM where
  | numV (data : List Nat)
  | varV (data : List Nat)
  | funV (data : List Nat)
  | mulV (data : List Nat)
  | addV (data : List Nat)
  | powV (data : List Nat)
deriving DecidableEq

/-- `AtomView::get_data`. -/
def AtomViewM.getData : AtomViewM → List Nat
  | .numV d => d
  | .varV d => d
  | .funV d => d
  | .mulV d => d
  | .addV d => d
  | .powV d => d

/-- `impl PartialEq for AtomView`: equality is comparison of the
underlying byte slices. -/
def viewEq (a b : AtomViewM) : Bool := a.getData == b.getData

/-- `AtomView::from`: dispatch on the variant tag of the first byte (an
unknown tag is unreachable in the source; the Num variant stands in). -/
def mkView (source : List Nat) : AtomViewM :=
  match source.headD 0 % 8 with
  | 2 => .varV source
  | 3 => .funV source
  | 1 => .numV source
  | 6 => .powV source
  | 4 => .mulV source
  | 5 => .addV source
  | _ => .numV source

/-- Wildcard-level decoding shared by `VarView` and `FunView`. -/
def wlDecode (b0 : Nat) : Nat :=
  match b0 &&& 24 with
  | 0 => 0
  | 8 => 1
  | 16 => 2
  | 24 => 3
  | _ => 0

/-- `VarView::get_symbol`: cyclesymmetric wins over the plain symmetric
and antisymmetric bits; the id is truncated to `u32`.  `Symbol::raw_fn`
(state.rs, not included) is modelled from the spec as the plain record
constructor. -/
def varGetSymbol (data : List Nat) : Symbol :=
  let b0 := data.headD 0
  let cyc := b0 &&& 160 == 160
  { id := (getFracU64 (data.drop 1)).1 % 4294967296
    wildcard_level := wlDecode b0
    is_symmetric := !cyc && (b0 &&& 32 == 32)
    is_antisymmetric := !cyc && (b0 &&& 128 == 128)
    is_cyclesymmetric := cyc
    is_linear := b0 &&& 64 == 64 }

/-- `FunView::is_symmetric`. -/
def funIsSymmetric (data : List Nat) : Bool :=
  if data.headD 0 &&& 32 == 0 then false
  else (getFracU64 (data.drop 5)).1 &&& 4294967296 == 0

/-- `FunView::is_antisymmetric`. -/
def funIsAntisymmetric (data : List Nat) : Bool :=
  if data.headD 0 &&& 32 == 32 then false
  else (getFracU64 (data.drop 5)).1 &&& 4294967296 == 4294967296

/-- `FunView::is_cyclesymmetric`. -/
def funIsCyclesymmetric (data : List Nat) : Bool :=
  if data.headD 0 &&& 32 == 0 then false
  else (getFracU64 (data.drop 5)).1 &&& 4294967296 == 4294967296

/-- One operand's contribution to a Mul built by `extend`: a Mul operand
is spliced into its children, anything else contributes itself. -/
def mulFlat1 : SAtom → List SAtom
  | .mul xs => xs
  | a => [a]

/-- One operand's contribution to an Add built by `extend`. -/
def addFlat1 : SAtom → List SAtom
  | .add xs => xs
  | a => [a]

/-- Contributions of a whole operand sequence to a Mul. -/
def mulFlat (l : List SAtom) : List SAtom := l.flatMap mulFlat1

/-- Contributions of a whole operand sequence to an Add. -/
def addFlat (l : List SAtom) : List SAtom := l.flatMap addFlat1

/-- The framing loop of `AtomView::export` / `Atom::import`: each
expression written with `AtomView::write`, concatenated. -/
def frames : List SAtom → List Nat
  | [] => []
  | a :: as => atomWrite (encode a) ++ frames as

theorem toLE_length (k v : Nat) : (toLE k v).length = k := by
  induction k generalizing v with
  | zero => rfl
  | succ k ih => simp [toLE, ih]

theorem fromLE_toLE (k v : Nat) (h : v < 256 ^ k) : fromLE (toLE k v) = v := by
  induction k generalizing v with
  | zero => simp at h; simp [toLE, fromLE, h]
  | succ k ih =>
    have hd : v / 256 < 256 ^ k := by
      rw [Nat.div_lt_iff_lt_mul (by norm_num)]
      calc v < 256 ^ (k + 1) := h
        _ = 256 ^ k * 256 := by ring
    simp only [toLE, fromLE, ih _ hd]
    omega

theorem take_append_of_length (x y : List Nat) (n : Nat) (h : x.length = n) :
    (x ++ y).take n = x := by
  subst h; simp

theorem drop_append_of_length (x y : List Nat) (n : Nat) (h : x.length = n) :
    (x ++ y).drop n = y := by
  subst h; simp

theorem fromLE_take_append (k v : Nat) (rest : List Nat) (h : v < 256 ^ k) :
    fromLE ((toLE k v ++ rest).take k) = v := by
  rw [take_append_of_length _ _ _ (toLE_length k v)]
  exact fromLE_toLE k v h

theorem numTier_pos (n : Nat) : 1 ≤ numTier n := by
  unfold numTier
  split
  · omega
  · split
    · omega
    · split <;> omega

theorem numTier_le (n : Nat) : numTier n ≤ 4 := by
  unfold numTier
  split
  · omega
  · split
    · omega
    · split <;> omega

theorem denTier_le (d : Nat) : denTier d ≤ 4 := by
  unfold denTier; split
  · omega
  · exact numTier_le d

theorem denTier_eq_zero_iff (d : Nat) : denTier d = 0 ↔ d = 1 := by
  unfold denTier
  split
  · simp_all
  · have := numTier_pos d
    constructor
    · omega
    · intro h; simp_all

theorem lt_of_numTier (n : Nat) (h : n < 2 ^ 64) : n < 256 ^ tagLen (numTier n) := by
  unfold numTier
  by_cases h1 : n < 256
  · simp only [h1, if_true, tagLen]; norm_num; omega
  · by_cases h2 : n < 65536
    · simp only [h1, h2, if_true, if_false, tagLen]; norm_num; omega
    · by_cases h3 : n < 4294967296
      · simp only [h1, h2, h3, if_true, if_false, tagLen]; norm_num; omega
      · simp only [h1, h2, h3, if_false, tagLen]
        have : (256 : Nat) ^ 8 = 2 ^ 64 := by norm_num
        omega

theorem packBody_length (a b : Nat) :
    (packBody a b).length = tagLen (numTier a) + tagLen (denTier b) := by
  unfold packBody denTier
  by_cases hb : b = 1
  · simp [hb, toLE_length, tagLen]
  · simp [hb, toLE_length]

/-- The descriptor byte decodes back to the two size tags. -/
theorem packPair_desc (a b : Nat) :
    (numTier a + 16 * denTier b) % 16 = numTier a ∧
    (numTier a + 16 * denTier b) / 16 % 8 = denTier b := by
  have h1 : numTier a ≤ 4 := numTier_le a
  have h2 : denTier b ≤ 4 := denTier_le b
  have h3 : 1 ≤ numTier a := numTier_pos a
  omega

theorem getFracU64_packPair_rem' (a b : Nat) (rest : List Nat) :
    (packBody a b ++ rest).drop (tagLen (numTier a) + tagLen (denTier b)) = rest :=
  drop_append_of_length _ _ _ (packBody_length a b)

/-- The remainder returned by the decoder is exactly the bytes after the
packed pair, regardless of the component values. -/
theorem getFracU64_packPair_rem (a b : Nat) (rest : List Nat) :
    (getFracU64 (packPair a b ++ rest)).2.2 = rest := by
  obtain ⟨h1, h2⟩ := packPair_desc a b
  simp only [packPair, List.cons_append, getFracU64, h1, h2]
  exact getFracU64_packPair_rem' a b rest

/-- Round trip of the packed-pair codec for values below `2^64`. -/
theorem getFracU64_packPair (a b : Nat) (rest : List Nat)
    (ha : a < 2 ^ 64) (hb : b < 2 ^ 64) :
    getFracU64 (packPair a b ++ rest) = (a, b, rest) := by
  obtain ⟨h1, h2⟩ := packPair_desc a b
  simp only [packPair, List.cons_append, getFracU64, h1, h2]
  refine Prod.ext ?_ (Prod.ext ?_ ?_)
  · show fromLE ((packBody a b ++ rest).take (tagLen (numTier a))) = a
    unfold packBody
    rw [List.append_assoc]
    exact fromLE_take_append _ a _ (lt_of_numTier a ha)
  · show (if denTier b = 0 then 1
      else fromLE (((packBody a b ++ rest).drop (tagLen (numTier a))).take
        (tagLen (denTier b)))) = b
    by_cases hb1 : b = 1
    · rw [hb1, if_pos ((denTier_eq_zero_iff 1).2 rfl)]
    · have hz : ¬denTier b = 0 := fun h => hb1 ((denTier_eq_zero_iff b).1 h)
      have hden : denTier b = numTier b := by simp [denTier, hb1]
      simp only [hz, if_false]
      unfold packBody
      simp only [hb1, if_false]
      rw [List.append_assoc, drop_append_of_length _ _ _ (toLE_length _ a), hden]
      exact fromLE_take_append _ b _ (lt_of_numTier b hb)
  · exact getFracU64_packPair_rem' a b rest

/-- Skipping a packed pair lands exactly after it. -/
theorem skipRational_packPair (a b : Nat) (rest : List Nat) :
    skipRational (packPair a b ++ rest) = rest := by
  obtain ⟨h1, h2⟩ := packPair_desc a b
  simp only [packPair, List.cons_append, skipRational, h1, h2]
  exact getFracU64_packPair_rem' a b rest

theorem skipRational_length_le (l : List Nat) : (skipRational l).length ≤ l.length := by
  cases l with
  | nil => simp [skipRational]
  | cons d r => simp [skipRational]; omega

theorem getFracU64_rem_length_le (l : List Nat) :
    (getFracU64 l).2.2.length ≤ l.length := by
  cases l with
  | nil => simp [getFracU64]
  | cons d r => simp [getFracU64]; omega

theorem encodeList_append (xs ys : List SAtom) :
    encodeList (xs ++ ys) = encodeList xs ++ encodeList ys := by
  induction xs with
  | nil => simp [encodeList]
  | cons a as ih => simp [encodeList, ih]

theorem wfListB_mem {l : List SAtom} (h : wfListB l = true) {a : SAtom}
    (ha : a ∈ l) : wfB a = true := by
  induction l with
  | nil => cases ha
  | cons b bs ih =>
    simp only [wfListB, Bool.and_eq_true] at h
    cases ha with
    | head => exact h.1
    | tail _ hm => exact ih h.2 hm

theorem wlBits_cases (w : Nat) :
    wlBits w = 0 ∨ wlBits w = 8 ∨ wlBits w = 16 ∨ wlBits w = 24 := by
  unfold wlBits
  rcases w with _ | _ | _ | w <;> simp

/-- Decoded facts about the Var header byte: variant tag, wildcard bits
and the four attribute flag bits. -/
theorem varFlags_spec (s : Symbol) :
    varFlags s % 8 = 2 ∧
    varFlags s &&& 24 = wlBits s.wildcard_level ∧
    varFlags s &&& 32 = 32 * (s.is_symmetric || s.is_cyclesymmetric).toNat ∧
    varFlags s &&& 128 = 128 * (s.is_antisymmetric || s.is_cyclesymmetric).toNat ∧
    varFlags s &&& 160 =
      32 * (s.is_symmetric || s.is_cyclesymmetric).toNat +
        128 * (s.is_antisymmetric || s.is_cyclesymmetric).toNat ∧
    varFlags s &&& 64 = 64 * s.is_linear.toNat := by
  obtain ⟨i, w, sym, anti, cyc, lin⟩ := s
  rcases wlBits_cases w with h | h | h | h <;>
    cases sym <;> cases anti <;> cases cyc <;> cases lin <;>
      simp only [varFlags, h] <;> decide

/-- Decoded facts about the Fun header byte: variant tag, wildcard bits,
the symmetric and linear flag bits, the `NOT_NORMALIZED` bit, and
absorption of further `NOT_NORMALIZED` writes. -/
theorem funFlags_spec (s : Symbol) :
    funFlags s % 8 = 3 ∧
    funFlags s &&& 24 = wlBits s.wildcard_level ∧
    funFlags s &&& 32 = 32 * (s.is_symmetric || s.is_cyclesymmetric).toNat ∧
    funFlags s &&& 64 = 64 * s.is_linear.toNat ∧
    funFlags s &&& 128 = 128 ∧
    funFlags s ||| 128 = funFlags s := by
  obtain ⟨i, w, sym, anti, cyc, lin⟩ := s
  rcases wlBits_cases w with h | h | h | h <;>
    cases sym <;> cases anti <;> cases cyc <;> cases lin <;>
      simp only [funFlags, h] <;> decide

theorem land_two_pow_32_of_lt {x : Nat} (h : x < 4294967296) :
    x &&& 4294967296 = 0 := by
  have h32 : (4294967296 : Nat) = 2 ^ 32 := by norm_num
  rw [h32, Nat.and_two_pow, Nat.testBit_lt_two_pow (h32 ▸ h)]
  simp

theorem land_lor_two_pow_32 {x : Nat} (h : x < 4294967296) :
    (x ||| 4294967296) &&& 4294967296 = 4294967296 := by
  have h32 : (4294967296 : Nat) = 2 ^ 32 := by norm_num
  rw [h32, Nat.and_two_pow, Nat.testBit_lor, Nat.testBit_lt_two_pow (h32 ▸ h),
    Nat.testBit_two_pow_self]
  simp

theorem lor_two_pow_32_lt {x : Nat} (h : x < 4294967296) :
    x ||| 4294967296 < 8589934592 := by
  have : x ||| 4294967296 < 2 ^ 33 :=
    Nat.or_lt_two_pow (by norm_num; omega) (by norm_num)
  omega

/-- The stored function identifier fits in a `u64` for 32-bit symbol ids. -/
theorem funPackedId_lt (s : Symbol) (h : s.id < 4294967296) :
    funPackedId s < 2 ^ 64 := by
  unfold funPackedId
  split
  · have := lor_two_pow_32_lt h; norm_num; omega
  · norm_num; omega

/-- Bit 32 of the stored function identifier records the
antisymmetric-or-cyclesymmetric property. -/
theorem funPackedId_land (s : Symbol) (h : s.id < 4294967296) :
    funPackedId s &&& 4294967296 =
      (if s.is_antisymmetric || s.is_cyclesymmetric then 4294967296 else 0) := by
  unfold funPackedId
  split <;> simp_all [land_lor_two_pow_32, land_two_pow_32_of_lt]

theorem iterLoop_eq_aux :
    ∀ (N : Nat) (pos : List Nat) (k : Nat), pos.length ≤ N →
      iterLoop pos k = sliceSkip pos k := by
  intro N
  induction N using Nat.strong_induction_on with
  | _ N ih =>
  intro pos k hle
  cases k with
  | zero => rw [iterLoop, sliceSkip]
  | succ k =>
    cases pos with
    | nil => rw [iterLoop, sliceSkip]
    | cons b rest =>
      simp only [List.length_cons] at hle
      have hrest : rest.length < N := by omega
      rw [iterLoop, sliceSkip]
      by_cases h1 : b % 8 = 1 ∨ b % 8 = 2
      · rw [if_pos h1, if_pos h1]
        exact ih rest.length hrest _ _ (skipRational_length_le rest)
      · rw [if_neg h1, if_neg h1]
        by_cases h2 : b % 8 = 3 ∨ b % 8 = 4
        · rw [if_pos h2, if_pos h2]
          exact ih rest.length hrest _ _ (by simp only [List.length_drop]; omega)
        · rw [if_neg h2, if_neg h2]
          by_cases h3 : b % 8 = 5
          · rw [if_pos h3, if_pos h3]
            refine ih rest.length hrest _ _ ?_
            have := getFracU64_rem_length_le rest
            simp only [List.length_drop]
            omega
          · rw [if_neg h3, if_neg h3]
            by_cases h4 : b % 8 = 6
            · rw [if_pos h4, if_pos h4]
              exact ih rest.length hrest _ _ le_rfl
            · rw [if_neg h4, if_neg h4]

theorem iterLoop_eq_sliceSkip (pos : List Nat) (k : Nat) :
    iterLoop pos k = sliceSkip pos k :=
  iterLoop_eq_aux pos.length pos k le_rfl

theorem sliceSkip_zero (pos : List Nat) : sliceSkip pos 0 = pos := by
  rw [sliceSkip]

theorem sliceSkip_cons_rat {b : Nat} (h : b % 8 = 1 ∨ b % 8 = 2)
    (rest : List Nat) (k : Nat) :
    sliceSkip (b :: rest) (k + 1) = sliceSkip (skipRational rest) k := by
  rw [sliceSkip, if_pos h]

theorem sliceSkip_cons_len {b : Nat} (h : b % 8 = 3 ∨ b % 8 = 4)
    (rest : List Nat) (k : Nat) :
    sliceSkip (b :: rest) (k + 1) =
      sliceSkip ((rest.drop 4).drop (readU32LE rest)) k := by
  have h1 : ¬(b % 8 = 1 ∨ b % 8 = 2) := by omega
  rw [sliceSkip, if_neg h1, if_pos h]

theorem sliceSkip_cons_add {b : Nat} (h : b % 8 = 5) (rest : List Nat) (k : Nat) :
    sliceSkip (b :: rest) (k + 1) =
      sliceSkip ((getFracU64 rest).2.2.drop (getFracU64 rest).2.1) k := by
  have h1 : ¬(b % 8 = 1 ∨ b % 8 = 2) := by omega
  have h2 : ¬(b % 8 = 3 ∨ b % 8 = 4) := by omega
  rw [sliceSkip, if_neg h1, if_neg h2, if_pos h]

theorem sliceSkip_cons_pow {b : Nat} (h : b % 8 = 6) (rest : List Nat) (k : Nat) :
    sliceSkip (b :: rest) (k + 1) = sliceSkip rest (k + 2) := by
  have h1 : ¬(b % 8 = 1 ∨ b % 8 = 2) := by omega
  have h2 : ¬(b % 8 = 3 ∨ b % 8 = 4) := by omega
  have h3 : ¬b % 8 = 5 := by omega
  rw [sliceSkip, if_neg h1, if_neg h2, if_neg h3, if_pos h]

theorem drop_append2 (x y rest : List Nat) :
    (x ++ (y ++ rest)).drop (x.length + y.length) = rest := by
  rw [← List.append_assoc]
  exact drop_append_of_length _ _ _ (by simp)

theorem readU32LE_toLE (L : Nat) (h : L < 4294967296) (y : List Nat) :
    readU32LE (toLE 4 L ++ y) = L := by
  unfold readU32LE
  exact fromLE_take_append 4 L y (by norm_num; omega)

/-- The skip state machine advances over exactly one well-formed node
encoding: skipping `k + 1` atoms starting at `encode a ++ rest` is
skipping `k` atoms starting at `rest`. -/
theorem skip_encode :
    ∀ (a : SAtom), wfB a = true → ∀ (rest : List Nat) (k : Nat),
      sliceSkip (encode a ++ rest) (k + 1) = sliceSkip rest k := by
  suffices H : ∀ (N : Nat) (a : SAtom), sizeOf a ≤ N → wfB a = true →
      ∀ (rest : List Nat) (k : Nat),
        sliceSkip (encode a ++ rest) (k + 1) = sliceSkip rest k from
    fun a h => H (sizeOf a) a le_rfl h
  intro N
  induction N using Nat.strong_induction_on with
  | _ N ih =>
  intro a hsz hwf rest k
  cases a with
  | num n d =>
    show sliceSkip (1 :: (packPair n d ++ rest)) (k + 1) = sliceSkip rest k
    rw [sliceSkip_cons_rat (by omega), skipRational_packPair]
  | var s =>
    show sliceSkip (varFlags s :: (packPair s.id 1 ++ rest)) (k + 1) = sliceSkip rest k
    rw [sliceSkip_cons_rat (Or.inr (varFlags_spec s).1), skipRational_packPair]
  | fn s args =>
    simp only [wfB, Bool.and_eq_true, decide_eq_true_eq] at hwf
    obtain ⟨⟨⟨hid, hcnt⟩, hlen⟩, hargs⟩ := hwf
    show sliceSkip ((funFlags s ::
      (u32le ((packPair (funPackedId s) args.length).length + (encodeList args).length) ++
        packPair (funPackedId s) args.length ++ encodeList args)) ++ rest) (k + 1) =
      sliceSkip rest k
    rw [List.cons_append, sliceSkip_cons_len (Or.inl (funFlags_spec s).1)]
    rw [List.append_assoc, List.append_assoc]
    rw [show u32le ((packPair (funPackedId s) args.length).length +
      (encodeList args).length) = toLE 4 ((packPair (funPackedId s) args.length).length +
      (encodeList args).length) from rfl]
    rw [readU32LE_toLE _ hlen, drop_append_of_length _ _ _ (toLE_length 4 _),
      drop_append2]
  | mul args =>
    simp only [wfB, Bool.and_eq_true, decide_eq_true_eq] at hwf
    obtain ⟨⟨hcnt, hlen⟩, hargs⟩ := hwf
    show sliceSkip ((132 ::
      (u32le ((packPair args.length 1).length + (encodeList args).length) ++
        packPair args.length 1 ++ encodeList args)) ++ rest) (k + 1) =
      sliceSkip rest k
    rw [List.cons_append, sliceSkip_cons_len (Or.inr (by norm_num))]
    rw [List.append_assoc, List.append_assoc]
    rw [show u32le ((packPair args.length 1).length + (encodeList args).length) =
      toLE 4 ((packPair args.length 1).length + (encodeList args).length) from rfl]
    rw [readU32LE_toLE _ hlen, drop_append_of_length _ _ _ (toLE_length 4 _),
      drop_append2]
  | add args =>
    simp only [wfB, Bool.and_eq_true, decide_eq_true_eq] at hwf
    obtain ⟨⟨hcnt, hlen⟩, hargs⟩ := hwf
    show sliceSkip ((133 :: (packPair args.length (encodeList args).length ++
      encodeList args)) ++ rest) (k + 1) = sliceSkip rest k
    rw [List.cons_append, sliceSkip_cons_add (by norm_num), List.append_assoc]
    rw [getFracU64_packPair _ _ _ (by omega) (by omega)]
    rw [drop_append_of_length _ _ _ rfl]
  | pow b e =>
    simp only [wfB, Bool.and_eq_true] at hwf
    have hszb : sizeOf b < N := by
      have : sizeOf b < sizeOf (SAtom.pow b e) := by
        simp only [SAtom.pow.sizeOf_spec]; omega
      omega
    have hsze : sizeOf e < N := by
      have : sizeOf e < sizeOf (SAtom.pow b e) := by
        simp only [SAtom.pow.sizeOf_spec]; omega
      omega
    show sliceSkip ((134 :: (encode b ++ encode e)) ++ rest) (k + 1) = sliceSkip rest k
    rw [List.cons_append, sliceSkip_cons_pow (by norm_num), List.append_assoc]
    rw [show k + 2 = (k + 1) + 1 from rfl]
    rw [ih (sizeOf b) hszb b le_rfl hwf.1 _ (k + 1)]
    exact ih (sizeOf e) hsze e le_rfl hwf.2 rest k

/-- Skipping a whole run of sibling encodings. -/
theorem sliceSkip_encodeList (l : List SAtom) (h : wfListB l = true)
    (rest : List Nat) (k : Nat) :
    sliceSkip (encodeList l ++ rest) (l.length + k) = sliceSkip rest k := by
  induction l generalizing k with
  | nil => simp [encodeList]
  | cons a as iha =>
    simp only [wfListB, Bool.and_eq_true] at h
    show sliceSkip ((encode a ++ encodeList as) ++ rest) (as.length + 1 + k) =
      sliceSkip rest k
    rw [List.append_assoc, show as.length + 1 + k = (as.length + k) + 1 by omega,
      skip_encode a h.1]
    exact iha h.2 k

/-- Fast-forwarding by `i` inside a run of siblings lands on the start of
the `i`-th sibling. -/
theorem sliceSkip_encodeList_drop (l : List SAtom) (h : wfListB l = true)
    (i : Nat) (hi : i ≤ l.length) (rest : List Nat) :
    sliceSkip (encodeList l ++ rest) i = encodeList (l.drop i) ++ rest := by
  induction i generalizing l with
  | zero => rw [sliceSkip_zero]; simp
  | succ i ihi =>
    cases l with
    | nil => simp at hi
    | cons a as =>
      simp only [wfListB, Bool.and_eq_true] at h
      show sliceSkip ((encode a ++ encodeList as) ++ rest) (i + 1) = _
      rw [List.append_assoc, skip_encode a h.1, ihi as h.2 (by simpa using hi)]
      simp

/-- Decoding one entry at the start of a well-formed encoding yields
exactly that encoding. -/
theorem getEntry_encode (a : SAtom) (h : wfB a = true) (rest : List Nat) :
    getEntry (encode a ++ rest) = (encode a, rest) := by
  unfold getEntry
  rw [show sliceSkip (encode a ++ rest) 1 = sliceSkip rest 0 from skip_encode a h rest 0,
    sliceSkip_zero, List.length_append, Nat.add_sub_cancel,
    take_append_of_length _ _ _ rfl]

/-- Draining an iterator positioned at a run of `l.length` well-formed
siblings produces exactly their encodings in order. -/
theorem iterToList_encodeList (l : List SAtom) (h : wfListB l = true) :
    iterToList ⟨encodeList l, l.length⟩ = l.map encode := by
  induction l with
  | nil => rfl
  | cons a as iha =>
    simp only [wfListB, Bool.and_eq_true] at h
    show iterToListGo (as.length + 1) ⟨encode a ++ encodeList as, as.length + 1⟩ = _
    rw [iterToListGo]
    have hnext : (ListIterator.mk (encode a ++ encodeList as) (as.length + 1)).next =
        some (encode a, ⟨encodeList as, as.length⟩) := by
      unfold ListIterator.next
      simp only [iterLoop_eq_sliceSkip]
      rw [show sliceSkip (encode a ++ encodeList as) 1 = sliceSkip (encodeList as) 0 from
        skip_encode a h.1 _ 0, sliceSkip_zero]
      rw [List.length_append, Nat.add_sub_cancel, take_append_of_length _ _ _ rfl]
    rw [hnext]
    exact congrArg (encode a :: ·) (iha h.2)

/-- Random access via `ListSlice::get` into a run of well-formed siblings
returns the indexed sibling's encoding. -/
theorem sliceGet_encodeList (l : List SAtom) (h : wfListB l = true)
    (i : Nat) (hi : i < l.length) (len : Nat) (t : SliceType) :
    ListSlice.get ⟨encodeList l, len, t⟩ i = encode l[i] := by
  unfold ListSlice.get ListSlice.fastForward
  simp only
  rw [show encodeList l = encodeList l ++ [] by simp,
    sliceSkip_encodeList_drop l h i (by omega) []]
  rw [List.drop_eq_getElem_cons hi]
  simp only [encodeList, List.append_assoc]
  rw [getEntry_encode _ (wfListB_mem h (List.getElem_mem hi))]

theorem encode_pow_eq (b e : SAtom) :
    encode (SAtom.pow b e) = 134 :: (encode b ++ encode e) := by
  simp [encode]

theorem encode_num_eq (n d : Nat) :
    encode (SAtom.num n d) = 1 :: packPair n d := by
  simp [encode]

theorem encode_var_eq (s : Symbol) :
    encode (SAtom.var s) = varFlags s :: packPair s.id 1 := by
  simp [encode]

theorem drop5_cons_u32 (b L : Nat) (rest : List Nat) :
    (b :: (u32le L ++ rest)).drop 5 = rest := by
  show (u32le L ++ rest).drop 4 = rest
  exact drop_append_of_length _ _ _ (toLE_length 4 L)

theorem drop5_add_cons_u32 (b L n : Nat) (x rest : List Nat) (h : x.length = n) :
    (b :: (u32le L ++ (x ++ rest))).drop (5 + n) = rest := by
  have h2 : b :: (u32le L ++ (x ++ rest)) = (b :: (u32le L ++ x)) ++ rest := by simp
  rw [h2]
  refine drop_append_of_length _ _ _ ?_
  simp only [List.length_cons, List.length_append, toLE_length]
  have := toLE_length 4 L
  simp only [u32le, this]
  omega

theorem drop1_add_cons (b n : Nat) (x rest : List Nat) (h : x.length = n) :
    (b :: (x ++ rest)).drop (1 + n) = rest := by
  rw [Nat.add_comm]
  show (x ++ rest).drop n = rest
  exact drop_append_of_length _ _ _ h

theorem encode_fn_eq (s : Symbol) (l : List SAtom) :
    encode (SAtom.fn s l) =
      funFlags s :: (u32le ((packPair (funPackedId s) l.length).length +
        (encodeList l).length) ++
        (packPair (funPackedId s) l.length ++ encodeList l)) := by
  simp [encode]

theorem encode_mul_eq (l : List SAtom) :
    encode (SAtom.mul l) =
      132 :: (u32le ((packPair l.length 1).length + (encodeList l).length) ++
        (packPair l.length 1 ++ encodeList l)) := by
  simp [encode]

theorem encode_add_eq (l : List SAtom) :
    encode (SAtom.add l) =
      133 :: (packPair l.length (encodeList l).length ++ encodeList l) := by
  simp [encode]

theorem encode_headD_mod (a : SAtom) : (encode a).headD 0 % 8 = tagOf a := by
  cases a with
  | num n d => rw [encode_num_eq]; simp [tagOf]
  | var s => rw [encode_var_eq]; simp only [List.headD_cons, tagOf]; exact (varFlags_spec s).1
  | fn s args => rw [encode_fn_eq]; simp only [List.headD_cons, tagOf]; exact (funFlags_spec s).1
  | mul args => rw [encode_mul_eq]; simp [tagOf]
  | add args => rw [encode_add_eq]; simp [tagOf]
  | pow b e => rw [encode_pow_eq]; simp [tagOf]

/-- `Fun::add_arg` on the encoding of an n-argument function appends the
child and yields the encoding of the function with the child added. -/
theorem funAddArg_encode (s : Symbol) (l : List SAtom) (a : SAtom)
    (hid : funPackedId s < 2 ^ 64) (hcnt : l.length < 2 ^ 64) :
    funAddArg (encode (SAtom.fn s l)) (encode a) = encode (SAtom.fn s (l ++ [a])) := by
  rw [encode_fn_eq]
  unfold funAddArg
  simp only [List.headD_cons, drop5_cons_u32]
  rw [getFracU64_packPair _ _ _ hid hcnt]
  simp only [List.length_append, (funFlags_spec s).2.2.2.2.2]
  rw [Nat.add_sub_cancel]
  rw [drop5_add_cons_u32 _ _ _ _ _ rfl]
  rw [encode_fn_eq]
  simp [encodeList_append, encodeList, List.length_append]
  rw [Nat.add_assoc]

/-- `Mul::extend` with an operand that is not itself a Mul appends it as
one further argument. -/
theorem mulExtend_encode_notMul (l : List SAtom) (a : SAtom)
    (hl : l.length < 2 ^ 64) (htag : tagOf a ≠ 4) :
    mulExtend (encode (SAtom.mul l)) (encode a) = encode (SAtom.mul (l ++ [a])) := by
  rw [encode_mul_eq]
  unfold mulExtend
  simp only [List.headD_cons, drop5_cons_u32]
  rw [getFracU64_packPair _ _ _ hl (by norm_num)]
  simp only [List.length_append]
  rw [Nat.add_sub_cancel]
  rw [drop5_add_cons_u32 _ _ _ _ _ rfl]
  rw [if_neg (by rw [encode_headD_mod]; exact htag)]
  rw [encode_mul_eq]
  simp [encodeList_append, encodeList, List.length_append]
  rw [Nat.add_assoc]

/-- `Mul::extend` with a Mul operand splices the operand's children in
directly: its count is added and its children bytes concatenated. -/
theorem mulExtend_encode_mul (l ys : List SAtom)
    (hl : l.length < 2 ^ 64) (hys : ys.length < 2 ^ 64) :
    mulExtend (encode (SAtom.mul l)) (encode (SAtom.mul ys)) =
      encode (SAtom.mul (l ++ ys)) := by
  rw [encode_mul_eq, encode_mul_eq ys]
  unfold mulExtend
  simp only [List.headD_cons, drop5_cons_u32]
  rw [getFracU64_packPair _ _ _ hl (by norm_num),
    getFracU64_packPair _ _ _ hys (by norm_num)]
  simp only [List.length_append]
  rw [Nat.add_sub_cancel]
  rw [drop5_add_cons_u32 _ _ _ _ _ rfl]
  rw [if_pos (by norm_num)]
  rw [encode_mul_eq]
  simp [encodeList_append, encodeList, List.length_append]
  rw [Nat.add_assoc]

theorem wfB_mul_count {ys : List SAtom} (h : wfB (SAtom.mul ys) = true) :
    ys.length < 2 ^ 64 := by
  simp only [wfB, Bool.and_eq_true, decide_eq_true_eq] at h
  have := h.1.1
  norm_num
  omega

theorem wfB_add_bounds {ys : List SAtom} (h : wfB (SAtom.add ys) = true) :
    ys.length < 2 ^ 64 ∧ (encodeList ys).length < 2 ^ 64 := by
  simp only [wfB, Bool.and_eq_true, decide_eq_true_eq] at h
  constructor
  · have := h.1.1; norm_num; omega
  · have := h.1.2; norm_num; omega

/-- `Mul::extend` on a well-formed operand: the operand's contribution is
`mulFlat1`. -/
theorem mulExtend_encode (l : List SAtom) (a : SAtom)
    (hl : l.length < 2 ^ 64) (ha : wfB a = true) :
    mulExtend (encode (SAtom.mul l)) (encode a) =
      encode (SAtom.mul (l ++ mulFlat1 a)) := by
  cases a with
  | mul ys =>
    rw [show mulFlat1 (SAtom.mul ys) = ys from rfl]
    exact mulExtend_encode_mul l ys hl (wfB_mul_count ha)
  | num n d => exact mulExtend_encode_notMul l _ hl (by simp [tagOf])
  | var s => exact mulExtend_encode_notMul l _ hl (by simp [tagOf])
  | fn s args => exact mulExtend_encode_notMul l _ hl (by simp [tagOf])
  | add args => exact mulExtend_encode_notMul l _ hl (by simp [tagOf])
  | pow b e => exact mulExtend_encode_notMul l _ hl (by simp [tagOf])

/-- `Add::extend` with an operand that is not itself an Add appends it as
one further term. -/
theorem addExtend_encode_notAdd (l : List SAtom) (a : SAtom)
    (hc : l.length < 2 ^ 64) (hb : (encodeList l).length < 2 ^ 64)
    (htag : tagOf a ≠ 5) :
    addExtend (encode (SAtom.add l)) (encode a) = encode (SAtom.add (l ++ [a])) := by
  rw [encode_add_eq]
  unfold addExtend
  simp only [List.headD_cons, List.drop_succ_cons, List.drop_zero]
  rw [getFracU64_packPair _ _ _ hc hb]
  simp only [List.length_append]
  rw [Nat.add_sub_cancel]
  rw [drop1_add_cons _ _ _ _ rfl]
  rw [if_neg (by rw [encode_headD_mod]; exact htag)]
  rw [encode_add_eq]
  simp [encodeList_append, encodeList, List.length_append]

/-- `Add::extend` with an Add operand splices the operand's terms in
directly. -/
theorem addExtend_encode_add (l ys : List SAtom)
    (hc : l.length < 2 ^ 64) (hb : (encodeList l).length < 2 ^ 64)
    (hys : ys.length < 2 ^ 64) (hysb : (encodeList ys).length < 2 ^ 64) :
    addExtend (encode (SAtom.add l)) (encode (SAtom.add ys)) =
      encode (SAtom.add (l ++ ys)) := by
  rw [encode_add_eq, encode_add_eq ys]
  unfold addExtend
  simp only [List.headD_cons, List.drop_succ_cons, List.drop_zero]
  rw [getFracU64_packPair _ _ _ hc hb, getFracU64_packPair _ _ _ hys hysb]
  simp only [List.length_append]
  rw [Nat.add_sub_cancel]
  rw [drop1_add_cons _ _ _ _ rfl]
  rw [if_pos (by norm_num)]
  rw [encode_add_eq]
  simp [encodeList_append, encodeList, List.length_append]

/-- `Add::extend` on a well-formed operand: the operand's contribution is
`addFlat1`. -/
theorem addExtend_encode (l : List SAtom) (a : SAtom)
    (hc : l.length < 2 ^ 64) (hb : (encodeList l).length < 2 ^ 64)
    (ha : wfB a = true) :
    addExtend (encode (SAtom.add l)) (encode a) =
      encode (SAtom.add (l ++ addFlat1 a)) := by
  cases a with
  | add ys =>
    rw [show addFlat1 (SAtom.add ys) = ys from rfl]
    exact addExtend_encode_add l ys hc hb (wfB_add_bounds ha).1 (wfB_add_bounds ha).2
  | num n d => exact addExtend_encode_notAdd l _ hc hb (by simp [tagOf])
  | var s => exact addExtend_encode_notAdd l _ hc hb (by simp [tagOf])
  | fn s args => exact addExtend_encode_notAdd l _ hc hb (by simp [tagOf])
  | mul args => exact addExtend_encode_notAdd l _ hc hb (by simp [tagOf])
  | pow b e => exact addExtend_encode_notAdd l _ hc hb (by simp [tagOf])

theorem mulFlat_cons (a : SAtom) (as : List SAtom) :
    mulFlat (a :: as) = mulFlat1 a ++ mulFlat as := by
  simp [mulFlat]

theorem addFlat_cons (a : SAtom) (as : List SAtom) :
    addFlat (a :: as) = addFlat1 a ++ addFlat as := by
  simp [addFlat]

/-- Folding `Mul::extend` over a sequence of well-formed operands starting
from a Mul of `xs` yields the Mul of `xs` followed by all contributions. -/
theorem mul_fold (l : List SAtom) (xs : List SAtom)
    (hwf : wfListB l = true)
    (hlen : xs.length + (mulFlat l).length < 2 ^ 64) :
    List.foldl (fun d a => mulExtend d (encode a)) (encode (SAtom.mul xs)) l =
      encode (SAtom.mul (xs ++ mulFlat l)) := by
  induction l generalizing xs with
  | nil => simp [mulFlat]
  | cons a as ih =>
    simp only [wfListB, Bool.and_eq_true] at hwf
    rw [mulFlat_cons] at hlen ⊢
    rw [List.foldl_cons,
      mulExtend_encode xs a (by simp at hlen; omega) hwf.1,
      ih _ hwf.2 (by simp [List.length_append] at hlen ⊢; omega)]
    simp [List.append_assoc]

/-- Folding `Add::extend` over a sequence of well-formed operands. -/
theorem add_fold (l : List SAtom) (xs : List SAtom)
    (hwf : wfListB l = true)
    (hcnt : xs.length + (addFlat l).length < 2 ^ 64)
    (hblen : (encodeList xs).length + (encodeList (addFlat l)).length < 2 ^ 64) :
    List.foldl (fun d a => addExtend d (encode a)) (encode (SAtom.add xs)) l =
      encode (SAtom.add (xs ++ addFlat l)) := by
  induction l generalizing xs with
  | nil => simp [addFlat]
  | cons a as ih =>
    simp only [wfListB, Bool.and_eq_true] at hwf
    rw [addFlat_cons] at hcnt hblen ⊢
    rw [encodeList_append] at hblen
    rw [List.foldl_cons,
      addExtend_encode xs a (by simp at hcnt; omega)
        (by simp [List.length_append] at hblen ⊢; omega) hwf.1,
      ih _ hwf.2 (by simp [List.length_append] at hcnt ⊢; omega)
        (by rw [encodeList_append]; simp [List.length_append] at hblen ⊢; omega)]
    simp [List.append_assoc]

theorem mulNew_eq : mulNew = encode (SAtom.mul []) := by
  rw [encode_mul_eq]
  simp [mulNew, encodeList]

theorem addNew_eq : addNew = encode (SAtom.add []) := by
  rw [encode_add_eq]
  simp [addNew, encodeList]

theorem funNew_eq (s : Symbol) : funNew s = encode (SAtom.fn s []) := by
  rw [encode_fn_eq]
  simp [funNew, encodeList]

theorem lor_128_land (x : Nat) : (x ||| 128) &&& 128 = 128 := by
  have h : (128 : Nat) = 2 ^ 7 := by norm_num
  rw [h, Nat.and_two_pow, Nat.testBit_lor, Nat.testBit_two_pow_self]
  simp

theorem take5_cons_u32 (b L : Nat) (rest : List Nat) :
    (b :: (u32le L ++ rest)).take 5 = b :: u32le L := by
  show b :: (u32le L ++ rest).take 4 = b :: u32le L
  exact congrArg (b :: ·) (take_append_of_length _ _ _ (toLE_length 4 L))

theorem mulGetNargs_encode (l : List SAtom) (h : l.length < 2 ^ 64) :
    mulGetNargs (encode (SAtom.mul l)) = l.length := by
  rw [encode_mul_eq]
  unfold mulGetNargs
  rw [drop5_cons_u32, getFracU64_packPair _ _ _ h (by norm_num)]

theorem mulIter_encode (l : List SAtom) (h : l.length < 2 ^ 64) :
    mulIter (encode (SAtom.mul l)) =
      ⟨encodeList l, l.length % 4294967296⟩ := by
  rw [encode_mul_eq]
  unfold mulIter
  rw [drop5_cons_u32, getFracU64_packPair _ _ _ h (by norm_num)]

theorem mulToSlice_encode (l : List SAtom) (h : l.length < 2 ^ 64) :
    mulToSlice (encode (SAtom.mul l)) = ⟨encodeList l, l.length, .mulT⟩ := by
  rw [encode_mul_eq]
  unfold mulToSlice
  rw [drop5_cons_u32, getFracU64_packPair _ _ _ h (by norm_num)]

theorem funGetNargs_encode (s : Symbol) (l : List SAtom)
    (hid : funPackedId s < 2 ^ 64) (h : l.length < 2 ^ 64) :
    funGetNargs (encode (SAtom.fn s l)) = l.length := by
  rw [encode_fn_eq]
  unfold funGetNargs
  rw [drop5_cons_u32, getFracU64_packPair _ _ _ hid h]

theorem funIter_encode (s : Symbol) (l : List SAtom)
    (hid : funPackedId s < 2 ^ 64) (h : l.length < 2 ^ 64) :
    funIter (encode (SAtom.fn s l)) = ⟨encodeList l, l.length % 4294967296⟩ := by
  rw [encode_fn_eq]
  unfold funIter
  rw [drop5_cons_u32, getFracU64_packPair _ _ _ hid h]

theorem funToSlice_encode (s : Symbol) (l : List SAtom)
    (hid : funPackedId s < 2 ^ 64) (h : l.length < 2 ^ 64) :
    funToSlice (encode (SAtom.fn s l)) = ⟨encodeList l, l.length, .arg⟩ := by
  rw [encode_fn_eq]
  unfold funToSlice
  rw [drop5_cons_u32, getFracU64_packPair _ _ _ hid h]

theorem addGetNargs_encode (l : List SAtom) (hc : l.length < 2 ^ 64)
    (hb : (encodeList l).length < 2 ^ 64) :
    addGetNargs (encode (SAtom.add l)) = l.length := by
  rw [encode_add_eq]
  unfold addGetNargs
  show (getFracU64 (packPair l.length (encodeList l).length ++ encodeList l)).1 = _
  rw [getFracU64_packPair _ _ _ hc hb]

theorem addIter_encode (l : List SAtom) (hc : l.length < 2 ^ 64)
    (hb : (encodeList l).length < 2 ^ 64) :
    addIter (encode (SAtom.add l)) = ⟨encodeList l, l.length % 4294967296⟩ := by
  rw [encode_add_eq]
  unfold addIter
  show (⟨(getFracU64 (packPair l.length (encodeList l).length ++ encodeList l)).2.2,
    (getFracU64 (packPair l.length (encodeList l).length ++ encodeList l)).1 %
      4294967296⟩ : ListIterator) = _
  rw [getFracU64_packPair _ _ _ hc hb]

theorem addToSlice_encode (l : List SAtom) (hc : l.length < 2 ^ 64)
    (hb : (encodeList l).length < 2 ^ 64) :
    addToSlice (encode (SAtom.add l)) = ⟨encodeList l, l.length, .addT⟩ := by
  rw [encode_add_eq]
  unfold addToSlice
  show (⟨(getFracU64 (packPair l.length (encodeList l).length ++ encodeList l)).2.2,
    (getFracU64 (packPair l.length (encodeList l).length ++ encodeList l)).1,
    SliceType.addT⟩ : ListSlice) = _
  rw [getFracU64_packPair _ _ _ hc hb]

theorem encodeList_drop_length_le (l : List SAtom) (i : Nat) :
    (encodeList (l.drop i)).length ≤ (encodeList l).length := by
  conv_rhs => rw [← List.take_append_drop i l]
  rw [encodeList_append]
  simp

theorem headD_take_append_cons (K : Nat) (hK : 1 ≤ K) (f : Nat) (y other : List Nat) :
    ((List.take K (f :: y)) ++ other).headD 0 = f := by
  cases K with
  | zero => omega
  | succ k => simp [List.take_succ_cons]

/-- `Mul::replace_last` does not touch the flag byte: the normalized bit
survives the call unchanged. -/
theorem mulReplaceLast_preserves_flag (l : List SAtom) (n : Bool) (other : List Nat)
    (hwf : wfListB l = true) (hl : l.length < 2 ^ 64) :
    isNormalized (mulReplaceLast (setNormalized (encode (SAtom.mul l)) n) other) =
      isNormalized (setNormalized (encode (SAtom.mul l)) n) := by
  rw [encode_mul_eq]
  unfold setNormalized
  simp only [List.headD_cons, List.tail_cons]
  set f := if n = true then 132 &&& 127 else 132 ||| 128 with hf
  unfold mulReplaceLast
  simp only [drop5_cons_u32]
  rw [getFracU64_packPair _ _ _ hl (by norm_num)]
  simp only [List.length_append]
  rw [Nat.add_sub_cancel]
  rw [take5_cons_u32, drop5_add_cons_u32 _ _ _ _ _ rfl]
  rw [show (f :: u32le ((packPair l.length 1).length + (encodeList l).length)) ++
    packPair l.length 1 ++ encodeList l =
    f :: (u32le ((packPair l.length 1).length + (encodeList l).length) ++
      (packPair l.length 1 ++ encodeList l)) by simp]
  unfold mulToSlice
  simp only [drop5_cons_u32]
  rw [getFracU64_packPair _ _ _ hl (by norm_num)]
  simp only [ListSlice.len]
  rw [show encodeList l = encodeList l ++ [] by simp,
    sliceSkip_encodeList_drop l hwf (l.length - 1) (by omega) []]
  simp only [List.append_nil]
  have hle := encodeList_drop_length_le l (l.length - 1)
  unfold isNormalized
  simp only [List.cons_append, List.headD_cons]
  rw [headD_take_append_cons _ (by
    simp only [List.length_cons, List.length_append, u32le, toLE_length]
    omega)]

theorem fun_fold (s : Symbol) (l xs : List SAtom)
    (hid : funPackedId s < 2 ^ 64)
    (hlen : xs.length + l.length < 2 ^ 64) :
    List.foldl (fun d a => funAddArg d (encode a)) (encode (SAtom.fn s xs)) l =
      encode (SAtom.fn s (xs ++ l)) := by
  induction l generalizing xs with
  | nil => simp
  | cons a as ih =>
    rw [List.foldl_cons, funAddArg_encode s xs a hid (by simp at hlen; omega),
      ih (xs ++ [a]) (by simp [List.length_append] at hlen ⊢; omega)]
    simp

theorem wfListB_append_eq (xs ys : List SAtom) :
    wfListB (xs ++ ys) = (wfListB xs && wfListB ys) := by
  induction xs with
  | nil => simp [wfListB]
  | cons a as ih => simp [wfListB, ih, Bool.and_assoc]

theorem wfListB_mulFlat1 (a : SAtom) (h : wfB a = true) :
    wfListB (mulFlat1 a) = true := by
  cases a with
  | mul ys =>
    simp only [wfB, Bool.and_eq_true] at h
    exact h.2
  | num n d => simp [mulFlat1, wfListB, h]
  | var s => simp [mulFlat1, wfListB, h]
  | fn s args => simp [mulFlat1, wfListB, h]
  | add args => simp [mulFlat1, wfListB, h]
  | pow b e => simp [mulFlat1, wfListB, h]

theorem wfListB_addFlat1 (a : SAtom) (h : wfB a = true) :
    wfListB (addFlat1 a) = true := by
  cases a with
  | add ys =>
    simp only [wfB, Bool.and_eq_true] at h
    exact h.2
  | num n d => simp [addFlat1, wfListB, h]
  | var s => simp [addFlat1, wfListB, h]
  | fn s args => simp [addFlat1, wfListB, h]
  | mul args => simp [addFlat1, wfListB, h]
  | pow b e => simp [addFlat1, wfListB, h]

theorem wfListB_mulFlat (l : List SAtom) (h : wfListB l = true) :
    wfListB (mulFlat l) = true := by
  induction l with
  | nil => rfl
  | cons a as ih =>
    simp only [wfListB, Bool.and_eq_true] at h
    rw [mulFlat_cons, wfListB_append_eq, wfListB_mulFlat1 a h.1, ih h.2]
    rfl

theorem wfListB_addFlat (l : List SAtom) (h : wfListB l = true) :
    wfListB (addFlat l) = true := by
  induction l with
  | nil => rfl
  | cons a as ih =>
    simp only [wfListB, Bool.and_eq_true] at h
    rw [addFlat_cons, wfListB_append_eq, wfListB_addFlat1 a h.1, ih h.2]
    rfl

/-- One `ListIterator::next` step at the start of a well-formed encoding
yields that encoding as the element. -/
theorem next_encode (a : SAtom) (h : wfB a = true) (rest : List Nat) (n : Nat) :
    (ListIterator.mk (encode a ++ rest) (n + 1)).next =
      some (encode a, ⟨rest, n⟩) := by
  unfold ListIterator.next
  simp only [iterLoop_eq_sliceSkip]
  rw [show sliceSkip (encode a ++ rest) 1 = sliceSkip rest 0 from skip_encode a h rest 0,
    sliceSkip_zero, List.length_append, Nat.add_sub_cancel,
    take_append_of_length _ _ _ rfl]

theorem getD_map_encode (l : List SAtom) (i : Nat) (hi : i < l.length) :
    (l.map encode).getD i [] = encode l[i] := by
  rw [List.getD_eq_getElem _ _ (by simpa using hi)]
  simp

/-- Claim C3 (amended): `Fun::add_arg`, `Mul::extend` and `Add::extend`
unconditionally set the not-normalized flag, so `is_normalized` reports
false after any of them; `Mul::replace_last`, however, leaves the flag
byte untouched, so the view's normalized status after the call is
whatever it was before. -/
theorem claim_C3 :
    (∀ data other : List Nat, isNormalized (funAddArg data other) = false) ∧
    (∀ data other : List Nat, isNormalized (mulExtend data other) = false) ∧
    (∀ data other : List Nat, isNormalized (addExtend data other) = false) ∧
    (∀ (l : List SAtom) (n : Bool) (other : List Nat),
      wfListB l = true → l.length < 2 ^ 64 →
      isNormalized (mulReplaceLast (setNormalized (encode (SAtom.mul l)) n) other) =
        isNormalized (setNormalized (encode (SAtom.mul l)) n)) := by
  refine ⟨?_, ?_, ?_, ?_⟩
  · intro data other
    unfold funAddArg isNormalized
    simp only [List.cons_append, List.headD_cons]
    rw [lor_128_land]
    rfl
  · intro data other
    unfold mulExtend isNormalized
    simp only [List.cons_append, List.headD_cons]
    rw [lor_128_land]
    rfl
  · intro data other
    unfold addExtend isNormalized
    simp only [List.cons_append, List.headD_cons]
    rw [lor_128_land]
    rfl
  · intro l n other hwf hl
    exact mulReplaceLast_preserves_flag l n other hwf hl

/-- Claim C3 witness at concrete inputs: the three extend operations leave
the flag set, and `replace_last` on a normalized two-argument Mul keeps
it normalized. -/
theorem claim_C3_witness :
    isNormalized (funAddArg (funNew ⟨1, 0, false, false, false, false⟩)
      (encode (SAtom.num 1 1))) = false ∧
    (wfListB [SAtom.num 5 1, SAtom.num 2 1] = true ∧
      ([SAtom.num 5 1, SAtom.num 2 1] : List SAtom).length < 2 ^ 64 ∧
      isNormalized (mulReplaceLast
        (setNormalized (encode (SAtom.mul [SAtom.num 5 1, SAtom.num 2 1])) true)
        (encode (SAtom.num 9 1))) =
        isNormalized
          (setNormalized (encode (SAtom.mul [SAtom.num 5 1, SAtom.num 2 1])) true)) :=
  ⟨claim_C3.1 _ _,
    by decide, by decide,
    claim_C3.2.2.2 [SAtom.num 5 1, SAtom.num 2 1] true (encode (SAtom.num 9 1))
      (by decide) (by decide)⟩

/-- Claim C3 counterexample: `Mul::replace_last` on a Mul whose normalized
flag has been set leaves `is_normalized` true, contradicting the claim
that every append or replace mutation leaves the node marked
not-normalized. -/
theorem claim_C3_counterexample :
    isNormalized (mulReplaceLast
      (setNormalized (encode (SAtom.mul [SAtom.num 5 1, SAtom.num 2 1])) true)
      (encode (SAtom.num 9 1))) = true := by
  rw [mulReplaceLast_preserves_flag _ true _ (by decide) (by decide)]
  decide

/-- Claim C1: a Mul (resp. Add) built from a fresh builder by a sequence
of `extend` calls reports as argument count the number of appends
(counting a same-kind operand by its own child count) and iterating its
children yields exactly the appended operands' encodings in append order,
with a same-kind operand spliced into its children. -/
theorem claim_C1 (l : List SAtom) (hwf : wfListB l = true)
    (hm : (mulFlat l).length < 2 ^ 32)
    (hac : (addFlat l).length < 2 ^ 32)
    (hab : (encodeList (addFlat l)).length < 2 ^ 64) :
    (mulGetNargs (List.foldl (fun d a => mulExtend d (encode a)) mulNew l) =
        (mulFlat l).length ∧
      iterToList (mulIter (List.foldl (fun d a => mulExtend d (encode a)) mulNew l)) =
        (mulFlat l).map encode) ∧
    (addGetNargs (List.foldl (fun d a => addExtend d (encode a)) addNew l) =
        (addFlat l).length ∧
      iterToList (addIter (List.foldl (fun d a => addExtend d (encode a)) addNew l)) =
        (addFlat l).map encode) := by
  have hm64 : (mulFlat l).length < 2 ^ 64 := by norm_num at hm ⊢; omega
  have hac64 : (addFlat l).length < 2 ^ 64 := by norm_num at hac ⊢; omega
  rw [mulNew_eq, addNew_eq,
    mul_fold l [] hwf (by simpa using hm64),
    add_fold l [] hwf (by simpa using hac64) (by simpa [encodeList] using hab)]
  simp only [List.nil_append]
  refine ⟨⟨?_, ?_⟩, ?_, ?_⟩
  · exact mulGetNargs_encode _ hm64
  · rw [mulIter_encode _ hm64,
      Nat.mod_eq_of_lt (by norm_num at hm ⊢; omega)]
    exact iterToList_encodeList _ (wfListB_mulFlat l hwf)
  · exact addGetNargs_encode _ hac64 hab
  · rw [addIter_encode _ hac64 hab,
      Nat.mod_eq_of_lt (by norm_num at hac ⊢; omega)]
    exact iterToList_encodeList _ (wfListB_addFlat l hwf)

/-- Claim C1 witness: three appends onto a fresh Mul and Add, the second
operand being a same-kind container that gets spliced. -/
theorem claim_C1_witness :
    (wfListB [SAtom.num 5 1, SAtom.mul [SAtom.num 2 1, SAtom.num 3 1],
        SAtom.add [SAtom.num 7 1]] = true ∧
      (mulFlat [SAtom.num 5 1, SAtom.mul [SAtom.num 2 1, SAtom.num 3 1],
        SAtom.add [SAtom.num 7 1]]).length < 2 ^ 32) ∧
    mulGetNargs (List.foldl (fun d a => mulExtend d (encode a)) mulNew
      [SAtom.num 5 1, SAtom.mul [SAtom.num 2 1, SAtom.num 3 1],
        SAtom.add [SAtom.num 7 1]]) = 4 :=
  ⟨⟨by decide, by decide⟩,
    (claim_C1 [SAtom.num 5 1, SAtom.mul [SAtom.num 2 1, SAtom.num 3 1],
        SAtom.add [SAtom.num 7 1]]
      (by decide) (by decide) (by decide) (by decide)).1.1⟩

/-- Claim C6: a Fun built from a symbol by n `add_arg` calls reports
argument count n, and every child is retrievable in insertion order both
by iteration and by indexed slice access. -/
theorem claim_C6 (s : Symbol) (args : List SAtom) (i : Nat)
    (hid : s.id < 2 ^ 32) (hwf : wfListB args = true)
    (hcnt : args.length < 2 ^ 32) (hi : i < args.length) :
    funGetNargs (List.foldl (fun d a => funAddArg d (encode a)) (funNew s) args) =
      args.length ∧
    iterToList (funIter
      (List.foldl (fun d a => funAddArg d (encode a)) (funNew s) args)) =
      args.map encode ∧
    (funToSlice
      (List.foldl (fun d a => funAddArg d (encode a)) (funNew s) args)).get i =
      encode args[i] := by
  have hid64 : funPackedId s < 2 ^ 64 := funPackedId_lt s (by norm_num at hid ⊢; omega)
  have hcnt64 : args.length < 2 ^ 64 := by norm_num at hcnt ⊢; omega
  rw [funNew_eq, fun_fold s args [] hid64 (by simpa using hcnt64)]
  simp only [List.nil_append]
  refine ⟨?_, ?_, ?_⟩
  · exact funGetNargs_encode s _ hid64 hcnt64
  · rw [funIter_encode s _ hid64 hcnt64,
      Nat.mod_eq_of_lt (by norm_num at hcnt ⊢; omega)]
    exact iterToList_encodeList _ hwf
  · rw [funToSlice_encode s _ hid64 hcnt64]
    exact sliceGet_encodeList args hwf i hi _ _

/-- Claim C6 witness: nine `add_arg` calls; count 9 and the fifth child
retrieved by indexed access. -/
theorem claim_C6_witness :
    ((⟨7, 0, false, false, false, false⟩ : Symbol).id < 2 ^ 32 ∧
      wfListB [SAtom.num 1 1, SAtom.num 2 1, SAtom.num 3 1, SAtom.num 4 1,
        SAtom.num 5 1, SAtom.num 6 1, SAtom.num 7 1, SAtom.num 8 1,
        SAtom.num 9 1] = true ∧
      (4 : Nat) < 9) ∧
    funGetNargs (List.foldl (fun d a => funAddArg d (encode a))
      (funNew ⟨7, 0, false, false, false, false⟩)
      [SAtom.num 1 1, SAtom.num 2 1, SAtom.num 3 1, SAtom.num 4 1,
        SAtom.num 5 1, SAtom.num 6 1, SAtom.num 7 1, SAtom.num 8 1,
        SAtom.num 9 1]) = 9 :=
  ⟨⟨by decide, by decide, by decide⟩,
    (claim_C6 ⟨7, 0, false, false, false, false⟩
      [SAtom.num 1 1, SAtom.num 2 1, SAtom.num 3 1, SAtom.num 4 1,
        SAtom.num 5 1, SAtom.num 6 1, SAtom.num 7 1, SAtom.num 8 1,
        SAtom.num 9 1] 4
      (by decide) (by decide) (by decide) (by decide)).1⟩

/-- Claim C2: for every well-formed container view (Fun, Mul, Add, Pow)
and every index in range, `ListSlice::get` — fast-forward by repeated
skip, then decode one entry — returns the same byte range as the i-th
element of the view's sequential iterator, the Pow children being reached
through the pending-skip counter. -/
theorem claim_C2 (s : Symbol) (l : List SAtom) (b e : SAtom) (i : Nat)
    (hid : s.id < 2 ^ 32) (hwf : wfListB l = true)
    (hcnt : l.length < 2 ^ 32) (hblen : (encodeList l).length < 2 ^ 64)
    (hwb : wfB b = true) (hwe : wfB e = true) :
    (i < l.length →
      (funToSlice (encode (SAtom.fn s l))).get i =
        (iterToList (funIter (encode (SAtom.fn s l)))).getD i [] ∧
      (mulToSlice (encode (SAtom.mul l))).get i =
        (iterToList (mulIter (encode (SAtom.mul l)))).getD i [] ∧
      (addToSlice (encode (SAtom.add l))).get i =
        (iterToList (addIter (encode (SAtom.add l)))).getD i []) ∧
    (i < 2 →
      (powToSlice (encode (SAtom.pow b e))).get i =
        (iterToList (ListIterator.mk ((encode (SAtom.pow b e)).drop 1) 2)).getD i []) := by
  have hid64 : funPackedId s < 2 ^ 64 := funPackedId_lt s (by norm_num at hid ⊢; omega)
  have hcnt64 : l.length < 2 ^ 64 := by norm_num at hcnt ⊢; omega
  have hmod : l.length % 4294967296 = l.length :=
    Nat.mod_eq_of_lt (by norm_num at hcnt ⊢; omega)
  constructor
  · intro hi
    refine ⟨?_, ?_, ?_⟩
    · rw [funToSlice_encode s _ hid64 hcnt64, funIter_encode s _ hid64 hcnt64, hmod,
        iterToList_encodeList _ hwf, sliceGet_encodeList l hwf i hi _ _,
        getD_map_encode l i hi]
    · rw [mulToSlice_encode _ hcnt64, mulIter_encode _ hcnt64, hmod,
        iterToList_encodeList _ hwf, sliceGet_encodeList l hwf i hi _ _,
        getD_map_encode l i hi]
    · rw [addToSlice_encode _ hcnt64 hblen, addIter_encode _ hcnt64 hblen, hmod,
        iterToList_encodeList _ hwf, sliceGet_encodeList l hwf i hi _ _,
        getD_map_encode l i hi]
  · intro hi
    have hbe : encode b ++ encode e = encodeList [b, e] := by simp [encodeList]
    have hwbe : wfListB [b, e] = true := by simp [wfListB, hwb, hwe]
    rw [encode_pow_eq]
    unfold powToSlice
    simp only [List.drop_succ_cons, List.drop_zero]
    have h2 : iterToList ⟨encodeList [b, e], 2⟩ = [b, e].map encode :=
      iterToList_encodeList [b, e] hwbe
    rw [hbe, h2, sliceGet_encodeList [b, e] hwbe i hi _ _, getD_map_encode [b, e] i hi]

/-- Claim C2 witness: a three-argument Mul and a nested Pow at concrete
indices. -/
theorem claim_C2_witness :
    (wfListB [SAtom.num 1 1, SAtom.pow (SAtom.num 2 1) (SAtom.num 3 1),
        SAtom.num 4 1] = true ∧
      wfB (SAtom.pow (SAtom.num 2 1) (SAtom.num 3 1)) = true ∧
      (1 : Nat) < 3) ∧
    (mulToSlice (encode (SAtom.mul [SAtom.num 1 1,
        SAtom.pow (SAtom.num 2 1) (SAtom.num 3 1), SAtom.num 4 1]))).get 1 =
      (iterToList (mulIter (encode (SAtom.mul [SAtom.num 1 1,
        SAtom.pow (SAtom.num 2 1) (SAtom.num 3 1), SAtom.num 4 1])))).getD 1 [] :=
  ⟨⟨by decide, by decide, by decide⟩,
    ((claim_C2 ⟨7, 0, false, false, false, false⟩
        [SAtom.num 1 1, SAtom.pow (SAtom.num 2 1) (SAtom.num 3 1), SAtom.num 4 1]
        (SAtom.num 2 1) (SAtom.num 3 1) 1
        (by decide) (by decide) (by decide) (by decide) (by decide) (by decide)).1
      (by decide)).2.1⟩

/-- Claim C5: a well-formed Pow view reports exactly two children — its
slice has length two and `get_base_exp` returns base then exponent — and
the encoding is the flag byte followed directly by the two children, with
no stored count or payload length. -/
theorem claim_C5 (b e : SAtom) (hb : wfB b = true) (he : wfB e = true) :
    (powToSlice (encode (SAtom.pow b e))).len = 2 ∧
    powGetBaseExp (encode (SAtom.pow b e)) = (encode b, encode e) ∧
    encode (SAtom.pow b e) = 134 :: (encode b ++ encode e) ∧
    (encode (SAtom.pow b e)).length = 1 + (encode b).length + (encode e).length := by
  refine ⟨rfl, ?_, encode_pow_eq b e, by rw [encode_pow_eq]; simp; omega⟩
  rw [encode_pow_eq]
  unfold powGetBaseExp
  simp only [List.drop_succ_cons, List.drop_zero]
  rw [next_encode b hb (encode e) 1]
  simp only
  rw [show encode e = encode e ++ [] by simp, next_encode e he [] 0]
  simp

/-- Claim C5 witness: a Pow with a nested Pow exponent. -/
theorem claim_C5_witness :
    (wfB (SAtom.num 2 1) = true ∧
      wfB (SAtom.pow (SAtom.num 3 1) (SAtom.num 4 1)) = true) ∧
    (powToSlice (encode (SAtom.pow (SAtom.num 2 1)
      (SAtom.pow (SAtom.num 3 1) (SAtom.num 4 1))))).len = 2 ∧
    powGetBaseExp (encode (SAtom.pow (SAtom.num 2 1)
      (SAtom.pow (SAtom.num 3 1) (SAtom.num 4 1)))) =
      (encode (SAtom.num 2 1), encode (SAtom.pow (SAtom.num 3 1) (SAtom.num 4 1))) :=
  ⟨⟨by decide, by decide⟩,
    (claim_C5 (SAtom.num 2 1) (SAtom.pow (SAtom.num 3 1) (SAtom.num 4 1))
      (by decide) (by decide)).1,
    (claim_C5 (SAtom.num 2 1) (SAtom.pow (SAtom.num 3 1) (SAtom.num 4 1))
      (by decide) (by decide)).2.1⟩

theorem tagOf_range (a : SAtom) : 1 ≤ tagOf a ∧ tagOf a ≤ 6 := by
  cases a <;> simp [tagOf]

theorem atomRead_write (a : SAtom) (h : (encode a).length < 2 ^ 64) (rest : List Nat) :
    atomRead (atomWrite (encode a) ++ rest) = some (encode a, rest) := by
  unfold atomWrite atomRead
  simp only [List.cons_append, List.append_assoc]
  rw [if_neg (by simp only [List.length_append, u64le, toLE_length]; omega)]
  rw [show fromLE ((u64le (encode a).length ++ (encode a ++ rest)).take 8) =
    (encode a).length from fromLE_take_append 8 _ _ (by norm_num at h ⊢; omega)]
  rw [drop_append_of_length _ _ _
    (show (u64le (encode a).length).length = 8 from toLE_length 8 _)]
  rw [if_neg (by simp only [List.length_append]; omega)]
  rw [take_append_of_length _ _ _ rfl]
  rw [if_pos (by rw [encode_headD_mod]; exact tagOf_range a)]
  rw [drop_append_of_length _ _ _ rfl]

theorem importGo_frames (l : List SAtom) (hsz : ∀ x ∈ l, (encode x).length < 2 ^ 64)
    (acc : List Nat) :
    importGo l.length (frames l) acc =
      some (List.foldl (fun d x => addExtend d (encode x)) acc l) := by
  induction l generalizing acc with
  | nil => rfl
  | cons a as ih =>
    show importGo (as.length + 1) (atomWrite (encode a) ++ frames as) acc = _
    rw [importGo, atomRead_write a (hsz a (List.mem_cons_self a as)) (frames as)]
    simp only [List.foldl_cons]
    exact ih (fun x hx => hsz x (List.mem_cons_of_mem a hx)) _

/-- Claim C7 (amended): `Atom::import` of a single expression returns it
without an Add wrapper; with more than one expression it extends a fresh
Add with each decoded expression, so each expression contributes its
terms — an expression that is itself an Add is spliced into its children
rather than kept as one term.  The symbol-table merge and the final
re-normalization are spec-modelled as the identity (already-agreeing
tables, renaming out of scope). -/
theorem claim_C7 (a : SAtom) (l : List SAtom)
    (ha : (encode a).length < 2 ^ 64)
    (hl2 : 2 ≤ l.length) (hlcnt : l.length < 2 ^ 64) (hwf : wfListB l = true)
    (hsz : ∀ x ∈ l, (encode x).length < 2 ^ 64)
    (hcnt : (addFlat l).length < 2 ^ 64)
    (hblen : (encodeList (addFlat l)).length < 2 ^ 64) :
    atomImport (u64le 1 ++ atomWrite (encode a)) = some (encode a) ∧
    atomImport (u64le l.length ++ frames l) = some (encode (SAtom.add (addFlat l))) := by
  constructor
  · unfold atomImport
    rw [take_append_of_length _ _ _ (show (u64le 1).length = 8 from toLE_length 8 1),
      show fromLE (u64le 1) = 1 from fromLE_toLE 8 1 (by norm_num)]
    rw [if_pos rfl,
      drop_append_of_length _ _ _ (show (u64le 1).length = 8 from toLE_length 8 1)]
    rw [show atomWrite (encode a) = atomWrite (encode a) ++ [] from (List.append_nil _).symm,
      atomRead_write a ha []]
    rfl
  · unfold atomImport
    rw [take_append_of_length _ _ _
        (show (u64le l.length).length = 8 from toLE_length 8 _),
      show fromLE (u64le l.length) = l.length from
        fromLE_toLE 8 _ (by norm_num at hlcnt ⊢; omega)]
    rw [if_neg (by omega),
      drop_append_of_length _ _ _ (show (u64le l.length).length = 8 from toLE_length 8 _)]
    rw [importGo_frames l hsz addNew, addNew_eq,
      add_fold l [] hwf (by simpa using hcnt) (by simpa [encodeList] using hblen)]
    rfl

/-- Claim C7 witness: one expression imported unwrapped; three
expressions summed into one Add. -/
theorem claim_C7_witness :
    ((encode (SAtom.num 5 1)).length < 2 ^ 64 ∧
      wfListB [SAtom.num 5 1, SAtom.num 2 1, SAtom.num 3 1] = true) ∧
    atomImport (u64le 1 ++ atomWrite (encode (SAtom.num 5 1))) =
      some (encode (SAtom.num 5 1)) ∧
    atomImport (u64le 3 ++
        frames [SAtom.num 5 1, SAtom.num 2 1, SAtom.num 3 1]) =
      some (encode (SAtom.add [SAtom.num 5 1, SAtom.num 2 1, SAtom.num 3 1])) :=
  ⟨⟨by decide, by decide⟩,
    (claim_C7 (SAtom.num 5 1) [SAtom.num 5 1, SAtom.num 2 1, SAtom.num 3 1]
      (by decide) (by decide) (by decide) (by decide) (by decide) (by decide)
      (by decide)).1,
    (claim_C7 (SAtom.num 5 1) [SAtom.num 5 1, SAtom.num 2 1, SAtom.num 3 1]
      (by decide) (by decide) (by decide) (by decide) (by decide) (by decide)
      (by decide)).2⟩

/-- Claim C7 counterexample: importing two expressions, the second being
an Add of two numbers, produces an Add reporting three terms — not an Add
whose terms are the two decoded top-level expressions. -/
theorem claim_C7_counterexample :
    (atomImport (u64le 2 ++ (atomWrite (encode (SAtom.num 2 1)) ++
        atomWrite (encode (SAtom.add [SAtom.num 3 1, SAtom.num 4 1]))))).map
      addGetNargs = some 3 ∧ (3 : Nat) ≠ 2 := by
  constructor
  · decide
  · decide

/-- Claim C4: writing a validly constructed atom with `AtomView::write`
(reserved flags byte, eight-byte little-endian payload length, payload)
and decoding the stream with `Atom::read` yields a byte-equal view. -/
theorem claim_C4 (a : SAtom) (h : (encode a).length < 2 ^ 64) :
    atomRead (atomWrite (encode a)) = some (encode a, []) := by
  have := atomRead_write a h []
  rwa [List.append_nil] at this

/-- Claim C4 witness: round trip of a concrete nested expression. -/
theorem claim_C4_witness :
    (encode (SAtom.pow (SAtom.num 2 1) (SAtom.num 3 1))).length < 2 ^ 64 ∧
    atomRead (atomWrite (encode (SAtom.pow (SAtom.num 2 1) (SAtom.num 3 1)))) =
      some (encode (SAtom.pow (SAtom.num 2 1) (SAtom.num 3 1)), []) :=
  ⟨by decide, claim_C4 (SAtom.pow (SAtom.num 2 1) (SAtom.num 3 1)) (by decide)⟩

/-- Claim C8: view equality (`impl PartialEq for AtomView`) between two
normalized views holds exactly when the underlying raw byte slices are
identical. -/
theorem claim_C8 (a b : AtomViewM)
    (hna : isNormalized a.getData = true) (hnb : isNormalized b.getData = true) :
    viewEq a b = true ↔ a.getData = b.getData := by
  unfold viewEq
  simp

/-- Claim C8 witness: two distinct normalized views compare unequal, and a
view compares equal to itself. -/
theorem claim_C8_witness :
    (isNormalized (mkView (encode (SAtom.var ⟨3, 0, false, false, false, false⟩))).getData =
        true ∧
      isNormalized (mkView (encode (SAtom.num 5 1))).getData = true) ∧
    (viewEq (mkView (encode (SAtom.var ⟨3, 0, false, false, false, false⟩)))
        (mkView (encode (SAtom.num 5 1))) = true ↔
      (mkView (encode (SAtom.var ⟨3, 0, false, false, false, false⟩))).getData =
        (mkView (encode (SAtom.num 5 1))).getData) :=
  ⟨⟨by decide, by decide⟩,
    claim_C8 (mkView (encode (SAtom.var ⟨3, 0, false, false, false, false⟩)))
      (mkView (encode (SAtom.num 5 1))) (by decide) (by decide)⟩

/-- Claim C10: the fixed-size inline Var constructor produces, byte for
byte, the same encoding as the heap-allocating Var builder for the same
symbol. -/
theorem claim_C10 (s : Symbol) : inlineVarGetData s = varData s := by
  unfold inlineVarGetData inlineVarNew varData varFlags
  simp only
  rw [Nat.add_comm 1 (packPair s.id 1).length, List.take_succ_cons,
    take_append_of_length _ _ _ rfl]

/-- Encoding a symbol as a Var and reading it back through
`VarView::get_symbol` restores the id, wildcard level and attribute
flags, provided the attributes satisfy the mutual constraint (symmetric
and antisymmetric never both set; a cyclesymmetric symbol carries neither
plain flag). -/
theorem varGetSymbol_varData (s : Symbol) (hid : s.id < 2 ^ 32)
    (hwl : s.wildcard_level ≤ 3)
    (hc1 : ¬(s.is_symmetric = true ∧ s.is_antisymmetric = true))
    (hc2 : s.is_cyclesymmetric = true →
      s.is_symmetric = false ∧ s.is_antisymmetric = false) :
    varGetSymbol (varData s) = s := by
  have hdec : (getFracU64 (packPair s.id 1)).1 = s.id := by
    have h := getFracU64_packPair s.id 1 [] (by norm_num at hid ⊢; omega) (by norm_num)
    rw [List.append_nil] at h
    rw [h]
  obtain ⟨h8, h24, h32, h128, h160, h64⟩ := varFlags_spec s
  unfold varGetSymbol varData wlDecode
  simp only [List.headD_cons, List.drop_succ_cons, List.drop_zero]
  rw [hdec, h24, h32, h128, h160, h64]
  obtain ⟨i, w, sym, anti, cyc, lin⟩ := s
  simp only at hid hwl hc1 hc2 ⊢
  rw [Symbol.mk.injEq]
  refine ⟨Nat.mod_eq_of_lt (by norm_num at hid ⊢; omega), ?_, ?_, ?_, ?_, ?_⟩
  · interval_cases w <;> decide
  · cases sym <;> cases anti <;> cases cyc <;> simp_all
  · cases sym <;> cases anti <;> cases cyc <;> simp_all
  · cases sym <;> cases anti <;> cases cyc <;> simp_all
  · cases lin <;> decide

/-- The `FunView` symmetry getters restore a constrained symbol's
attribute flags: a cyclesymmetric symbol reads back cyclesymmetric and
neither plain symmetric nor plain antisymmetric. -/
theorem funFlags_roundtrip (s : Symbol) (hid : s.id < 2 ^ 32)
    (hc1 : ¬(s.is_symmetric = true ∧ s.is_antisymmetric = true))
    (hc2 : s.is_cyclesymmetric = true →
      s.is_symmetric = false ∧ s.is_antisymmetric = false) :
    funIsSymmetric (funNew s) = s.is_symmetric ∧
    funIsAntisymmetric (funNew s) = s.is_antisymmetric ∧
    funIsCyclesymmetric (funNew s) = s.is_cyclesymmetric := by
  have hid32 : s.id < 4294967296 := by norm_num at hid ⊢; omega
  have hdec : (getFracU64 (packPair (funPackedId s) 0)).1 = funPackedId s := by
    have h := getFracU64_packPair (funPackedId s) 0 [] (funPackedId_lt s hid32)
      (by norm_num)
    rw [List.append_nil] at h
    rw [h]
  obtain ⟨h8, h24, h32, h64, h128, habs⟩ := funFlags_spec s
  unfold funIsSymmetric funIsAntisymmetric funIsCyclesymmetric funNew
  simp only [List.cons_append, List.headD_cons, drop5_cons_u32]
  rw [hdec, funPackedId_land s hid32, h32]
  obtain ⟨i, w, sym, anti, cyc, lin⟩ := s
  simp only at hc1 hc2 ⊢
  refine ⟨?_, ?_, ?_⟩
  · cases sym <;> cases anti <;> cases cyc <;> simp_all
  · cases sym <;> cases anti <;> cases cyc <;> simp_all
  · cases sym <;> cases anti <;> cases cyc <;> simp_all

/-- Claim C9: under the mutual attribute constraint, a Var round-trips the
symbol id, wildcard level and all attribute flags, and the Fun view's
is_symmetric / is_antisymmetric / is_cyclesymmetric getters restore the
same flags; in particular a cyclesymmetric symbol reads back
cyclesymmetric and neither plain symmetric nor plain antisymmetric. -/
theorem claim_C9 (s : Symbol) (hid : s.id < 2 ^ 32)
    (hwl : s.wildcard_level ≤ 3)
    (hc1 : ¬(s.is_symmetric = true ∧ s.is_antisymmetric = true))
    (hc2 : s.is_cyclesymmetric = true →
      s.is_symmetric = false ∧ s.is_antisymmetric = false) :
    varGetSymbol (varData s) = s ∧
    funIsSymmetric (funNew s) = s.is_symmetric ∧
    funIsAntisymmetric (funNew s) = s.is_antisymmetric ∧
    funIsCyclesymmetric (funNew s) = s.is_cyclesymmetric :=
  ⟨varGetSymbol_varData s hid hwl hc1 hc2, funFlags_roundtrip s hid hc1 hc2⟩

/-- Claim C9 witness: a concrete cyclesymmetric, linear symbol with
wildcard level two: the Var round-trips it exactly (so is_cyclesymmetric
reads back true with both plain flags false), and the Fun getters report
cyclesymmetric only. -/
theorem claim_C9_witness :
    ((⟨700, 2, false, false, true, true⟩ : Symbol).id < 2 ^ 32 ∧
      (⟨700, 2, false, false, true, true⟩ : Symbol).wildcard_level ≤ 3) ∧
    varGetSymbol (varData ⟨700, 2, false, false, true, true⟩) =
      ⟨700, 2, false, false, true, true⟩ ∧
    funIsCyclesymmetric (funNew ⟨700, 2, false, false, true, true⟩) = true :=
  ⟨⟨by decide, by decide⟩,
    (claim_C9 ⟨700, 2, false, false, true, true⟩ (by decide) (by decide)
      (by decide) (by decide)).1,
    (claim_C9 ⟨700, 2, false, false, true, true⟩ (by decide) (by decide)
      (by decide) (by decide)).2.2.2⟩

end Symbolica
